import Mathlib

/-!
# Verification of the recli grammar engine, permission engine and dispatcher

This development is a shallow embedding of the core of `recli`
(`src/src/syntax.c`, `src/permission.c`, `src/dir.c`).

Modelling conventions:

* A grammar node (`cli_syntax_t`) becomes the inductive type `CliSyntax`.
  The C code keeps nodes in a content-addressed hash-consed store, so two
  live nodes are pointer-equal exactly when their contents are equal (this
  store-level invariant is verified separately on an explicit heap model,
  see `SynStore` below).  In the structural model, node identity is
  therefore structural equality, and the C pointer comparisons (`a == b`)
  become decidable equality.
* Machine integers (`int`, `uint32_t`) are modelled as `Int`/`Nat`; the C
  code never overflows them in the modelled paths, except the 32-bit FNV
  hash which is reduced `% 2^32` explicitly in the store model.
* A datatype validator (`recli_datatype_parse_t`, attached to a literal
  through the node's `next` pointer) is modelled by the name it was
  registered under together with an environment
  `dt : String → String → Bool × Option String` giving, for each datatype
  name and word, whether the validator accepts and what error string it
  writes (none = it leaves `*error` untouched).
* Out parameters (`const char **error`, `int *flags`) become components of
  the returned value; the `int *flags` in-out parameter is threaded
  explicitly.
* Functions whose recursion in C is bounded only by heap structure that the
  hash-consed store guarantees acyclic (the merge machinery) are given a
  fuel parameter and return `Option`; `none` means "out of fuel" or a path
  on which the C program aborts (assertion failure / error return).
-/

/-- Flag bits on a literal node (stored in the `min` field of an EXACT
node): `FLAG_NEEDS_TTY = 1 << 0`, `FLAG_CASE_INSENSITIVE = 1 << 1`,
`FLAGS_EXPORT = FLAG_NEEDS_TTY`. -/
def FLAG_NEEDS_TTY : Nat := 1

def FLAG_CASE_INSENSITIVE : Nat := 2

def FLAGS_EXPORT : Nat := FLAG_NEEDS_TTY

/-- The node type `cli_syntax_t` from `src/src/syntax.c`.

* `exact name flags dtype` is a `CLI_TYPE_EXACT` node: `name` is the
  keyword (`this->first`), `flags` the flag bits kept in `this->min`, and
  `dtype` the name of the attached datatype validator when the node was
  created by `syntax_parse_add` (`this->next != NULL` in C).
* `varargs` is `CLI_TYPE_VARARGS` (its payload is always the string
  `"..."`, enforced by `syntax_alloc`).
* `optional`, `plus`, `concat`, `alternate` mirror the corresponding
  variants; `plus` carries the `min`/`max` repetition bounds.

`CLI_TYPE_MACRO` nodes are resolved away at parse time and
`CLI_TYPE_FORCE_EXACT` is an alias of `EXACT` that only bypasses keyword
checks in `syntax_alloc`, so neither needs its own constructor. -/
inductive CliSyntax where
  | exact (name : String) (flags : Nat) (dtype : Option String)
  | varargs
  | optional (inner : CliSyntax)
  | plus (inner : CliSyntax) (pmin pmax : Nat)
  | concat (first next : CliSyntax)
  | alternate (first next : CliSyntax)
deriving DecidableEq, Repr, Ord

namespace CliSyntax

/-- Number of constructors in a node tree; used only as a termination
measure for the recursions that the C code performs over the acyclic
node graph. -/
@[simp] def nodeSize : CliSyntax → Nat
  | exact _ _ _ => 1
  | varargs => 1
  | optional a => nodeSize a + 1
  | plus a _ _ => nodeSize a + 1
  | concat a b => nodeSize a + nodeSize b + 1
  | alternate a b => nodeSize a + nodeSize b + 1

theorem nodeSize_pos (a : CliSyntax) : 0 < a.nodeSize := by
  cases a <;> simp [nodeSize]

/-- The `length` field of a concatenation node: `syntax_alloc` sets
`this->length = 1 + (next->length when next is CONCAT, else 1)`; every
other node counts as one terminal slot. -/
def clen : CliSyntax → Nat
  | concat _ n => 1 + clen n
  | _ => 1

end CliSyntax

open CliSyntax

/-! ## `syntax_check` (src/src/syntax.c lines 2429–2587)

The verdict is the C `int` return value.  `*error` and `*flags` become the
second and third components of the result; `flags` is in-out (`*flags |=
...` in C), so the function takes the incoming flag word.  A datatype
validator call `((recli_datatype_parse_t)a->next)(argv[0], error)` is
modelled by `dt name word = (accepted, written)`; the C callback receives
the `error` out-parameter, which was reset to `NULL` at entry to
`syntax_check`, so `written = none` leaves the slot `NULL`. -/

/-- Result of one `syntax_check` call: `(verdict, *error, *flags)`. -/
abbrev CheckResult := Int × Option String × Nat

mutual

/-- The function `syntax_check(head, argc, argv, error, flags)`.  The `!head` and
`argc < 0` guard of the C code cannot fire here (the grammar is a total
value and `argv` a list), so the body starts at the `switch`. -/
def syntax_check (dt : String → String → Bool × Option String) :
    CliSyntax → List String → Nat → CheckResult
  | .exact name flags dtype, argv, fl =>
    match argv with
    | [] => (1, none, fl)        -- want one more argument
    | w :: _ =>
      match dtype with
      | some d =>
        -- call registered data type such as IPADDR, etc.
        let r := dt d w
        if r.1 then (1, r.2, fl)
        else match r.2 with
          | some e => (-1, some e, fl)
          | none => (-1, some "Input does not match required syntax", fl)
      | none =>
        if flags &&& FLAG_CASE_INSENSITIVE ≠ 0 then
          if name.toLower = w.toLower then (1, none, fl ||| (flags &&& FLAGS_EXPORT))
          else (-1, some "No matching command", fl)
        else
          if name = w then (1, none, fl ||| (flags &&& FLAGS_EXPORT))
          else (-1, some "No matching command", fl)
  | .varargs, argv, fl =>
    match argv with
    | [] => (1, none, fl)        -- want one more argument
    | _ => ((argv.length : Int), none, fl)  -- eat all following arguments
  | .optional inner, argv, fl =>
    match argv with
    | [] => (0, none, fl)        -- that's OK
    | _ =>
      let (words, e, fl') := syntax_check dt inner argv fl
      if words < 0 then (0, e, fl') else (words, e, fl')
  | .plus inner pmin _pmax, argv, fl =>
    if pmin = 1 then
      let (words, e, fl') := syntax_check dt inner argv fl
      if words ≤ 0 then (words, e, fl')
      else if words > (argv.length : Int) then (words, e, fl')
      else check_plus_loop dt inner pmin (argv.drop words.toNat) words.toNat e fl'
    else
      -- total = 0; empty argv is OK
      if argv.isEmpty then (0, none, fl)
      else check_plus_loop dt inner pmin argv 0 none fl
  | .concat first next, argv, fl =>
    let (words, e, fl') := syntax_check dt first argv fl
    if words < 0 then (words, e, fl')
    else if words > (argv.length : Int) then (words, e, fl')
    else
      let rest := argv.drop words.toNat
      let (words2, e2, fl2) := syntax_check dt next rest fl'
      if words2 < 0 then (words2 - words, e2, fl2)
      else if words2 > (rest.length : Int) then (words + words2, e2, fl2)
      else (words + words2, e2, fl2)
  | .alternate first next, argv, fl =>
    let (words, alt_e, fl') := syntax_check dt first argv fl
    if words > 0 then (words, none, fl')
    else if argv.isEmpty ∧ words = 0 then (0, none, fl')
    else
      let (total, e, fl2) := syntax_check dt next argv fl'
      if total ≥ 0 then (total, e, fl2)
      else if total < words then (total, e, fl2)
      else (words, alt_e, fl2)
termination_by g argv _ => (g.nodeSize, 0, argv.length)

/-- The `while (argc > 0)` loop of the `CLI_TYPE_PLUS` case of
`syntax_check`.  `total` is the words consumed so far, `e`/`fl` the
current `*error`/`*flags` state. -/
def check_plus_loop (dt : String → String → Bool × Option String)
    (inner : CliSyntax) (pmin : Nat) :
    List String → Nat → Option String → Nat → CheckResult
  | argv, total, e, fl =>
    if argv.isEmpty then ((total : Int), e, fl)
    else
      let (words, e', fl') := syntax_check dt inner argv fl
      -- "No match on '*' is OK."  (sic: tested before looking at words)
      if (pmin : Int) = (total : Int) then (0, e', fl')
      else if words < 0 then (words - total, e', fl')
      else if words = 0 then ((total : Int), e', fl')
      else if words > (argv.length : Int) then (words, e', fl')
      else check_plus_loop dt inner pmin (argv.drop words.toNat)
        (total + words.toNat) e' fl'
termination_by argv _ _ _ => (inner.nodeSize, 1, argv.length)

end

/-- The empty datatype registry: no validator ever accepts and none writes
an error message.  (`syntax_check` consults the registry only on literals
carrying a validator.) -/
def dtEmpty : String → String → Bool × Option String := fun _ _ => (false, none)

/-! ### Flag discipline of `syntax_check` (claim C8) -/

lemma export_and_self (flags : Nat) :
    (flags &&& FLAGS_EXPORT) &&& FLAGS_EXPORT = flags &&& FLAGS_EXPORT := by
  simp [FLAGS_EXPORT, FLAG_NEEDS_TTY, Nat.and_one_is_mod, Nat.mod_mod_of_dvd]

lemma export_or_closed {x y : Nat} (hx : x &&& FLAGS_EXPORT = x)
    (hy : y &&& FLAGS_EXPORT = y) : (x ||| y) &&& FLAGS_EXPORT = x ||| y := by
  have hx' : x % 2 = x := by simpa [FLAGS_EXPORT, FLAG_NEEDS_TTY, Nat.and_one_is_mod] using hx
  have hy' : y % 2 = y := by simpa [FLAGS_EXPORT, FLAG_NEEDS_TTY, Nat.and_one_is_mod] using hy
  have hx2 : x ≤ 1 := by omega
  have hy2 : y ≤ 1 := by omega
  interval_cases x <;> interval_cases y <;> decide

lemma check_plus_loop_flags (dt : String → String → Bool × Option String)
    (inner : CliSyntax) (pmin : Nat)
    (H : ∀ argv fl, ∃ x, x &&& FLAGS_EXPORT = x ∧
      (syntax_check dt inner argv fl).2.2 = fl ||| x) :
    ∀ (N : Nat) (argv : List String) (total : Nat) (e : Option String) (fl : Nat),
      argv.length ≤ N →
      ∃ x, x &&& FLAGS_EXPORT = x ∧
        (check_plus_loop dt inner pmin argv total e fl).2.2 = fl ||| x := by
  intro N
  induction N with
  | zero =>
    intro argv total e fl hlen
    have : argv = [] := by
      cases argv with
      | nil => rfl
      | cons a as => simp at hlen
    subst this
    refine ⟨0, by decide, ?_⟩
    simp [check_plus_loop]
  | succ n ih =>
    intro argv total e fl hlen
    rw [check_plus_loop]
    rcases hsc : syntax_check dt inner argv fl with ⟨words, e', fl'⟩
    obtain ⟨x1, hx1, hfl'⟩ := H argv fl
    rw [hsc] at hfl'
    simp only at hfl'
    split
    · exact ⟨0, by decide, by simp⟩
    · simp only
      split
      · exact ⟨x1, hx1, hfl'⟩
      · split
        · exact ⟨x1, hx1, hfl'⟩
        · split
          · exact ⟨x1, hx1, hfl'⟩
          · split
            · exact ⟨x1, hx1, hfl'⟩
            · rename_i hempty hmin hneg hzero hbig
              have hlen2 : (argv.drop words.toNat).length ≤ n := by
                have hne : argv ≠ [] := by
                  simpa [List.isEmpty_iff] using hempty
                have : 0 < argv.length := List.length_pos.mpr hne
                have hw : (0:Int) < words := by omega
                have : 0 < words.toNat := by omega
                simp [List.length_drop]
                omega
              obtain ⟨x2, hx2, hrec⟩ := ih (argv.drop words.toNat) (total + words.toNat) e' fl' hlen2
              refine ⟨x1 ||| x2, export_or_closed hx1 hx2, ?_⟩
              rw [hrec, hfl', Nat.or_assoc]

/-- Claim C8: `syntax_check` is pure apart from its two out-parameters.  In
this embedding `syntax_check` is a function of the grammar and argv alone
(the C function allocates no node, takes no reference and frees none, so
the content-addressed store, the reference counts and `g` itself cannot
change); the residual effect claim is that the flag word is only ever
OR-ed with export-visible bits: the outgoing `*flags` equals the incoming
word OR-ed with some `x` containing only `FLAGS_EXPORT` bits. -/
theorem syntax_check_flags_export (dt : String → String → Bool × Option String)
    (g : CliSyntax) : ∀ (argv : List String) (fl : Nat),
    ∃ x, x &&& FLAGS_EXPORT = x ∧
      (syntax_check dt g argv fl).2.2 = fl ||| x := by
  induction g with
  | exact name flags dtype =>
    intro argv fl
    rw [syntax_check.eq_def]
    cases argv with
    | nil => exact ⟨0, by decide, by simp⟩
    | cons w ws =>
      dsimp only
      cases dtype with
      | some d =>
        dsimp only
        split
        · exact ⟨0, by decide, by simp⟩
        · split <;> exact ⟨0, by decide, by simp⟩
      | none =>
        dsimp only
        split <;> split
        · exact ⟨flags &&& FLAGS_EXPORT, export_and_self flags, rfl⟩
        · exact ⟨0, by decide, by simp⟩
        · exact ⟨flags &&& FLAGS_EXPORT, export_and_self flags, rfl⟩
        · exact ⟨0, by decide, by simp⟩
  | varargs =>
    intro argv fl
    rw [syntax_check.eq_def]
    cases argv with
    | nil => exact ⟨0, by decide, by simp⟩
    | cons w ws => exact ⟨0, by decide, by simp⟩
  | optional inner ih =>
    intro argv fl
    rw [syntax_check.eq_def]
    cases argv with
    | nil => exact ⟨0, by decide, by simp⟩
    | cons w ws =>
      dsimp only
      rcases hsc : syntax_check dt inner (w :: ws) fl with ⟨words, e', fl'⟩
      obtain ⟨x, hx, hfl⟩ := ih (w :: ws) fl
      rw [hsc] at hfl
      split <;> exact ⟨x, hx, hfl⟩
  | plus inner pmin pmax ih =>
    intro argv fl
    rw [syntax_check.eq_def]
    dsimp only
    split
    · rcases hsc : syntax_check dt inner argv fl with ⟨words, e', fl'⟩
      obtain ⟨x1, hx1, hfl⟩ := ih argv fl
      rw [hsc] at hfl
      simp only at hfl ⊢
      split
      · exact ⟨x1, hx1, hfl⟩
      · split
        · exact ⟨x1, hx1, hfl⟩
        · obtain ⟨x2, hx2, hrec⟩ := check_plus_loop_flags dt inner pmin ih
            (argv.drop words.toNat).length (argv.drop words.toNat)
            words.toNat e' fl' (le_refl _)
          refine ⟨x1 ||| x2, export_or_closed hx1 hx2, ?_⟩
          rw [hrec, hfl, Nat.or_assoc]
    · split
      · exact ⟨0, by decide, by simp⟩
      · obtain ⟨x2, hx2, hrec⟩ := check_plus_loop_flags dt inner pmin ih
          argv.length argv 0 none fl (le_refl _)
        exact ⟨x2, hx2, hrec⟩
  | concat first next ih1 ih2 =>
    intro argv fl
    rw [syntax_check.eq_def]
    rcases hsc : syntax_check dt first argv fl with ⟨words, e', fl'⟩
    obtain ⟨x1, hx1, hfl1⟩ := ih1 argv fl
    rw [hsc] at hfl1
    simp only [hsc] at hfl1 ⊢
    split
    · exact ⟨x1, hx1, hfl1⟩
    · split
      · exact ⟨x1, hx1, hfl1⟩
      · rcases hsc2 : syntax_check dt next (argv.drop words.toNat) fl' with ⟨words2, e2, fl2⟩
        obtain ⟨x2, hx2, hfl2⟩ := ih2 (argv.drop words.toNat) fl'
        rw [hsc2] at hfl2
        simp only [hsc2] at hfl2 ⊢
        have hh : fl2 = fl ||| (x1 ||| x2) := by rw [hfl2, hfl1, Nat.or_assoc]
        split <;> [skip; split] <;> exact ⟨x1 ||| x2, export_or_closed hx1 hx2, hh⟩
  | alternate first next ih1 ih2 =>
    intro argv fl
    rw [syntax_check.eq_def]
    rcases hsc : syntax_check dt first argv fl with ⟨words, e', fl'⟩
    obtain ⟨x1, hx1, hfl1⟩ := ih1 argv fl
    rw [hsc] at hfl1
    simp only [hsc] at hfl1 ⊢
    split
    · exact ⟨x1, hx1, hfl1⟩
    · split
      · exact ⟨x1, hx1, hfl1⟩
      · rcases hsc2 : syntax_check dt next argv fl' with ⟨words2, e2, fl2⟩
        obtain ⟨x2, hx2, hfl2⟩ := ih2 argv fl'
        rw [hsc2] at hfl2
        simp only [hsc2] at hfl2 ⊢
        have hh : fl2 = fl ||| (x1 ||| x2) := by rw [hfl2, hfl1, Nat.or_assoc]
        split <;> [skip; split] <;> exact ⟨x1 ||| x2, export_or_closed hx1 hx2, hh⟩

lemma check_plus_loop_fail (dt : String → String → Bool × Option String)
    (inner : CliSyntax) (pmin : Nat)
    (H : ∀ argv fl, (syntax_check dt inner argv fl).1 < 0 →
      -((argv.length : Int) + 1) ≤ (syntax_check dt inner argv fl).1 ∧
      (syntax_check dt inner argv fl).2.1 ≠ none) :
    ∀ (N : Nat) (argv : List String) (total : Nat) (e : Option String) (fl : Nat),
      argv.length ≤ N →
      (check_plus_loop dt inner pmin argv total e fl).1 < 0 →
      -((argv.length : Int) + (total : Int) + 1) ≤
          (check_plus_loop dt inner pmin argv total e fl).1 ∧
      (check_plus_loop dt inner pmin argv total e fl).2.1 ≠ none := by
  intro N
  induction N with
  | zero =>
    intro argv total e fl hlen hneg
    have hnil : argv = [] := by
      cases argv with
      | nil => rfl
      | cons a as => simp at hlen
    subst hnil
    rw [check_plus_loop] at hneg
    simp at hneg
    omega
  | succ n ih =>
    intro argv total e fl hlen hneg
    rw [check_plus_loop] at hneg ⊢
    rcases hsc : syntax_check dt inner argv fl with ⟨words, e', fl'⟩
    have H1 := H argv fl
    rw [hsc] at H1
    simp only at H1
    simp only [hsc] at hneg ⊢
    by_cases hempty : argv.isEmpty = true
    · simp only [if_pos hempty] at hneg
      omega
    · simp only [if_neg hempty] at hneg ⊢
      by_cases hmin : (pmin : Int) = (total : Int)
      · simp only [if_pos hmin] at hneg
        omega
      · simp only [if_neg hmin] at hneg ⊢
        by_cases hwneg : words < 0
        · simp only [if_pos hwneg] at hneg ⊢
          obtain ⟨hb, he⟩ := H1 (by omega)
          exact ⟨by omega, he⟩
        · simp only [if_neg hwneg] at hneg ⊢
          by_cases hwz : words = 0
          · simp only [if_pos hwz] at hneg
            omega
          · simp only [if_neg hwz] at hneg ⊢
            by_cases hbig : words > (argv.length : Int)
            · simp only [if_pos hbig] at hneg
              have hne : argv ≠ [] := by simpa [List.isEmpty_iff] using hempty
              have : 0 < argv.length := List.length_pos.mpr hne
              omega
            · simp only [if_neg hbig] at hneg ⊢
              have hne : argv ≠ [] := by simpa [List.isEmpty_iff] using hempty
              have hpos : 0 < argv.length := List.length_pos.mpr hne
              have hw : (0:Int) < words := by omega
              have hwnat : (words.toNat : Int) = words := Int.toNat_of_nonneg (by omega)
              have hdrop : (argv.drop words.toNat).length = argv.length - words.toNat := by
                simp [List.length_drop]
              have hlen2 : (argv.drop words.toNat).length ≤ n := by
                rw [hdrop]; omega
              have hrec := ih (argv.drop words.toNat) (total + words.toNat) e' fl' hlen2 hneg
              refine ⟨?_, hrec.2⟩
              have hb := hrec.1
              rw [hdrop] at hb
              have hcast : ((argv.length - words.toNat : Nat) : Int) =
                  (argv.length : Int) - words := by omega
              omega

/-- Claim C3: for every non-null grammar `g` and every argv on which check
fails (negative verdict), `syntax_check(g, argv)` returns `-n` with
`1 ≤ n ≤ len(argv)+1` (that is, `-(len(argv)+1) ≤ verdict ≤ -1`,
designating argv position `n-1`) and sets the error output to a non-null
message. -/
theorem syntax_check_fail_general (dt : String → String → Bool × Option String)
    (g : CliSyntax) : ∀ (argv : List String) (fl : Nat),
    (syntax_check dt g argv fl).1 < 0 →
    -((argv.length : Int) + 1) ≤ (syntax_check dt g argv fl).1 ∧
    (syntax_check dt g argv fl).2.1 ≠ none := by
  induction g with
  | exact name flags dtype =>
    intro argv fl hneg
    rw [syntax_check.eq_def] at hneg ⊢
    cases argv with
    | nil => simp at hneg
    | cons w ws =>
      dsimp only at hneg ⊢
      cases dtype with
      | some d =>
        dsimp only at hneg ⊢
        by_cases hacc : (dt d w).1 = true
        · simp only [if_pos hacc] at hneg
          omega
        · simp only [if_neg hacc] at hneg ⊢
          rcases hr : (dt d w).2 with _ | msg <;> simp only [hr] at hneg ⊢
          · exact ⟨by omega, by simp⟩
          · exact ⟨by omega, by simp⟩
      | none =>
        dsimp only at hneg ⊢
        by_cases hci : flags &&& FLAG_CASE_INSENSITIVE ≠ 0
        · simp only [if_pos hci] at hneg ⊢
          by_cases heq : name.toLower = w.toLower
          · simp only [if_pos heq] at hneg
            omega
          · simp only [if_neg heq] at hneg ⊢
            exact ⟨by omega, by simp⟩
        · simp only [if_neg hci] at hneg ⊢
          by_cases heq : name = w
          · simp only [if_pos heq] at hneg
            omega
          · simp only [if_neg heq] at hneg ⊢
            exact ⟨by omega, by simp⟩
  | varargs =>
    intro argv fl hneg
    rw [syntax_check.eq_def] at hneg
    cases argv with
    | nil => simp at hneg
    | cons w ws =>
      simp at hneg
      exact absurd hneg (by omega)
  | optional inner ih =>
    intro argv fl hneg
    rw [syntax_check.eq_def] at hneg
    cases argv with
    | nil => simp at hneg
    | cons w ws =>
      dsimp only at hneg
      rcases hsc : syntax_check dt inner (w :: ws) fl with ⟨words, e', fl'⟩
      simp only [hsc] at hneg
      split at hneg <;> omega
  | plus inner pmin pmax ih =>
    intro argv fl hneg
    rw [syntax_check.eq_def] at hneg ⊢
    dsimp only at hneg ⊢
    by_cases hp : pmin = 1
    · simp only [if_pos hp] at hneg ⊢
      rcases hsc : syntax_check dt inner argv fl with ⟨words, e', fl'⟩
      have H1 := ih argv fl
      rw [hsc] at H1
      simp only at H1
      simp only [hsc] at hneg ⊢
      by_cases hw0 : words ≤ 0
      · simp only [if_pos hw0] at hneg ⊢
        exact H1 hneg
      · simp only [if_neg hw0] at hneg ⊢
        by_cases hbig : words > (argv.length : Int)
        · simp only [if_pos hbig] at hneg
          omega
        · simp only [if_neg hbig] at hneg ⊢
          have hw : (0:Int) < words := by omega
          have hwnat : (words.toNat : Int) = words := Int.toNat_of_nonneg (by omega)
          have hdrop : (argv.drop words.toNat).length = argv.length - words.toNat := by
            simp [List.length_drop]
          have hrec := check_plus_loop_fail dt inner pmin ih
            (argv.drop words.toNat).length (argv.drop words.toNat)
            words.toNat e' fl' (le_refl _) hneg
          refine ⟨?_, hrec.2⟩
          have hb := hrec.1
          rw [hdrop] at hb
          have hcast : ((argv.length - words.toNat : Nat) : Int) =
              (argv.length : Int) - words := by omega
          omega
    · simp only [if_neg hp] at hneg ⊢
      by_cases he : argv.isEmpty = true
      · simp only [if_pos he] at hneg
        omega
      · simp only [if_neg he] at hneg ⊢
        have hrec := check_plus_loop_fail dt inner pmin ih
          argv.length argv 0 none fl (le_refl _) hneg
        exact ⟨by have := hrec.1; omega, hrec.2⟩
  | concat first next ih1 ih2 =>
    intro argv fl hneg
    rw [syntax_check.eq_def] at hneg ⊢
    rcases hsc : syntax_check dt first argv fl with ⟨words, e', fl'⟩
    have H1 := ih1 argv fl
    rw [hsc] at H1
    simp only at H1
    simp only [hsc] at hneg ⊢
    by_cases hwneg : words < 0
    · simp only [if_pos hwneg] at hneg ⊢
      exact H1 hneg
    · simp only [if_neg hwneg] at hneg ⊢
      by_cases hbig : words > (argv.length : Int)
      · simp only [if_pos hbig] at hneg
        omega
      · simp only [if_neg hbig] at hneg ⊢
        rcases hsc2 : syntax_check dt next (argv.drop words.toNat) fl' with ⟨words2, e2, fl2⟩
        have H2 := ih2 (argv.drop words.toNat) fl'
        rw [hsc2] at H2
        simp only at H2
        simp only [hsc2] at hneg ⊢
        have hwnat : (words.toNat : Int) = words := Int.toNat_of_nonneg (by omega)
        have hdrop : (argv.drop words.toNat).length = argv.length - words.toNat := by
          simp [List.length_drop]
        by_cases hw2 : words2 < 0
        · simp only [if_pos hw2] at hneg ⊢
          obtain ⟨hb, he⟩ := H2 hw2
          rw [hdrop] at hb
          have hcast : ((argv.length - words.toNat : Nat) : Int) =
              (argv.length : Int) - words := by omega
          exact ⟨by omega, he⟩
        · simp only [if_neg hw2] at hneg ⊢
          split at hneg <;> omega
  | alternate first next ih1 ih2 =>
    intro argv fl hneg
    rw [syntax_check.eq_def] at hneg ⊢
    rcases hsc : syntax_check dt first argv fl with ⟨words, e', fl'⟩
    have H1 := ih1 argv fl
    rw [hsc] at H1
    simp only at H1
    simp only [hsc] at hneg ⊢
    by_cases hwpos : words > 0
    · simp only [if_pos hwpos] at hneg
      omega
    · simp only [if_neg hwpos] at hneg ⊢
      by_cases hz : argv.isEmpty ∧ words = 0
      · simp only [if_pos hz] at hneg
        omega
      · simp only [if_neg hz] at hneg ⊢
        rcases hsc2 : syntax_check dt next argv fl' with ⟨words2, e2, fl2⟩
        have H2 := ih2 argv fl'
        rw [hsc2] at H2
        simp only at H2
        simp only [hsc2] at hneg ⊢
        by_cases hnn : words2 ≥ 0
        · simp only [if_pos hnn] at hneg
          omega
        · simp only [if_neg hnn] at hneg ⊢
          by_cases hlt : words2 < words
          · simp only [if_pos hlt] at hneg ⊢
            exact H2 (by omega)
          · simp only [if_neg hlt] at hneg ⊢
            exact H1 (by omega)

/-- Claim C4 (code bug): check on a repetition node is *not* greedy.  For
the grammar `a+` (PLUS with `min = 1`) and `argv = ["a", "a"]`, greedy
matching that respects `min` would consume both words (verdict `2`); the C
code's loop tests `if (a->min == total) return 0;` on every iteration —
before even looking at whether the inner grammar matched — so as soon as
one word has been consumed and another remains, the whole `a+` node
reports a verdict of `0` ("matched zero words").  The second conjunct
records the half of the claim the code does satisfy: `a*` (`min = 0`)
matching zero words yields the successful verdict `0`. -/
theorem syntax_check_plus_not_greedy :
    (syntax_check dtEmpty (.plus (.exact "a" 0 none) 1 0) ["a", "a"] 0 = (0, none, 0) ∧
      (syntax_check dtEmpty (.plus (.exact "a" 0 none) 1 0) ["a", "a"] 0).1 ≠ 2) ∧
    syntax_check dtEmpty (.plus (.exact "a" 0 none) 0 0) ["b"] 0 =
      (0, some "No matching command", 0) := by
  refine ⟨⟨?_, ?_⟩, ?_⟩ <;>
    simp [syntax_check.eq_def, check_plus_loop.eq_def, FLAG_CASE_INSENSITIVE]

/-- Witness for C3 at a concrete failing input: grammar `a`, argv `["b"]`
fails with verdict `-1`, which lies in `[-(1+1), -1]`, and the error
message is present. -/
theorem syntax_check_fail_general_witness :
    (syntax_check dtEmpty (.exact "a" 0 none) ["b"] 0).1 < 0 ∧
    -(((["b"] : List String).length : Int) + 1) ≤
      (syntax_check dtEmpty (.exact "a" 0 none) ["b"] 0).1 ∧
    (syntax_check dtEmpty (.exact "a" 0 none) ["b"] 0).2.1 ≠ none := by
  have hv : syntax_check dtEmpty (.exact "a" 0 none) ["b"] 0 =
      (-1, some "No matching command", 0) := by
    simp [syntax_check.eq_def, FLAG_CASE_INSENSITIVE]
  have hneg : (syntax_check dtEmpty (.exact "a" 0 none) ["b"] 0).1 < 0 := by
    rw [hv]; norm_num
  have h := syntax_check_fail_general dtEmpty (.exact "a" 0 none) ["b"] 0 hneg
  exact ⟨hneg, h.1, h.2⟩

/-! ## Tab-completion enumeration: `syntax_prefix_words` -/

def CLI_MATCH_EXACT : Nat := 0

def CLI_MATCH_PREFIX : Nat := 1

/-- The CONCAT arm of `syntax_alloc`: rebuilding a concatenation
right-associatively (`concat(concat(a,b),c) ==> concat(a,concat(b,c))`). -/
def allocConcat : CliSyntax → CliSyntax → CliSyntax
  | .concat a b, c => .concat a (allocConcat b c)
  | a, c => .concat a c

@[simp] lemma nodeSize_allocConcat (a b : CliSyntax) :
    (allocConcat a b).nodeSize = a.nodeSize + b.nodeSize + 1 := by
  induction a generalizing b with
  | concat x y ihx ihy => simp [allocConcat, ihy]; omega
  | _ => simp [allocConcat]

/-- Byte-wise prefix comparison `strncmp(name, word, strlen(word)) == 0`:
the word is a prefix of the literal. -/
def strPfx (w s : String) : Bool := w.data.isPrefixOf s.data

/-- The `strncasecmp` variant used for case-insensitive literals. -/
def strCasePfx (w s : String) : Bool := w.toLower.data.isPrefixOf s.toLower.data

/-- One entry written into the output `argv[]` of `syntax_prefix_words`:
either an EXACT node's keyword (tagged with its case-insensitive flag, for
stating the containment property), the empty string an OPTIONAL emits to
represent "skip", or the `"..."` placeholder a VARARGS emits. -/
inductive PrefixEntry where
  | lit (name : String) (ci : Bool)
  | skipMark
  | varargsMark
deriving DecidableEq, Repr

/-- The string the C code actually stores (`argv[0] = this->first` for
literals and varargs, `argv[0] = ""` for the optional skip). -/
def PrefixEntry.str : PrefixEntry → String
  | .lit n _ => n
  | .skipMark => ""
  | .varargsMark => "..."

def sizeO : Option CliSyntax → Nat
  | none => 0
  | some s => s.nodeSize

/-- The function `syntax_prefix_words(argc, argv, word, sense, this, next)`
(src/src/syntax.c lines 2023–2122).  `argc` is the remaining output
budget; the return value is the list of entries written (the C function
returns their count and advances `argv`). -/
def syntax_prefix_words (word : Option String) (sense : Nat) :
    Nat → CliSyntax → Option CliSyntax → List PrefixEntry
  | argc, this, next =>
    if argc = 0 then []
    else
      match this with
      | .exact name flags _ =>
        if sense = CLI_MATCH_PREFIX then
          match word with
          | none => []
          | some w =>
            if flags &&& FLAG_CASE_INSENSITIVE ≠ 0 then
              if strCasePfx w name then [.lit name true] else []
            else
              if strPfx w name then [.lit name false] else []
        else
          [.lit name (flags &&& FLAG_CASE_INSENSITIVE ≠ 0)]
      | .varargs => [.varargsMark]
      | .optional inner =>
        let l1 := syntax_prefix_words word sense (argc - 1) inner next
        match next with
        | none => .skipMark :: l1
        | some nx =>
          .skipMark :: (l1 ++ syntax_prefix_words word sense (argc - 1 - l1.length) nx none)
      | .plus inner _ _ =>
        let l1 := syntax_prefix_words word sense argc inner next
        match next with
        | none => l1
        | some nx => l1 ++ syntax_prefix_words word sense (argc - l1.length) nx none
      | .concat f n =>
        match next with
        | none => syntax_prefix_words word sense argc f (some n)
        | some nx => syntax_prefix_words word sense argc f (some (allocConcat n nx))
      | .alternate f r =>
        let l1 := syntax_prefix_words word sense argc f next
        l1 ++ syntax_prefix_words word sense (argc - l1.length) r next
termination_by argc this next => (this.nodeSize + sizeO next, this.nodeSize)
decreasing_by
  all_goals simp [sizeO, nodeSize_allocConcat]
  all_goals first
    | (apply Prod.Lex.left; omega)
    | (apply Prod.Lex.right; omega)
    | omega



/-- The claimed containment property of one output entry: a literal must
begin with the supplied partial word, compared case-insensitively when the
literal carries `FLAG_CASE_INSENSITIVE`; the OPTIONAL skip marker and the
VARARGS placeholder are the two non-literal entries the walk emits. -/
def entryContains (w : String) : PrefixEntry → Prop
  | .lit name ci => (if ci then strCasePfx w name else strPfx w name) = true
  | .skipMark => True
  | .varargsMark => True

lemma syntax_prefix_words_containment_aux (w : String) :
    ∀ (S z argc : Nat) (g : CliSyntax) (next : Option CliSyntax),
    g.nodeSize + sizeO next ≤ S → g.nodeSize ≤ z →
    ∀ nm ci, PrefixEntry.lit nm ci ∈ syntax_prefix_words (some w) CLI_MATCH_PREFIX argc g next →
    entryContains w (.lit nm ci) := by
  intro S
  induction S using Nat.strong_induction_on with
  | _ S ihS =>
    intro z
    induction z using Nat.strong_induction_on with
    | _ z ihz =>
      intro argc g next hS hz nm ci hmem
      rw [syntax_prefix_words.eq_def] at hmem
      dsimp only at hmem
      by_cases hargc : argc = 0
      · simp [if_pos hargc] at hmem
      · rw [if_neg hargc] at hmem
        cases g with
        | exact name flags dtype =>
          simp only [CLI_MATCH_PREFIX, if_true] at hmem
          by_cases hci : flags &&& FLAG_CASE_INSENSITIVE ≠ 0
          · rw [if_pos hci] at hmem
            by_cases hpre : strCasePfx w name
            · rw [if_pos hpre] at hmem
              simp at hmem
              obtain ⟨h1, h2⟩ := hmem
              subst h1; subst h2
              simpa [entryContains] using hpre
            · rw [if_neg hpre] at hmem
              simp at hmem
          · rw [if_neg hci] at hmem
            by_cases hpre : strPfx w name
            · rw [if_pos hpre] at hmem
              simp at hmem
              obtain ⟨h1, h2⟩ := hmem
              subst h1; subst h2
              simpa [entryContains] using hpre
            · rw [if_neg hpre] at hmem
              simp at hmem
        | varargs => simp at hmem
        | optional inner =>
          have hsub : inner.nodeSize + sizeO next < S := by
            simp [nodeSize] at hS; omega
          cases next with
          | none =>
            simp only at hmem
            rcases List.mem_cons.mp hmem with h | h
            · exact absurd h (by simp)
            · exact ihS _ hsub inner.nodeSize _ inner none (le_refl _) (le_refl _) nm ci h
          | some nx =>
            simp only at hmem
            rcases List.mem_cons.mp hmem with h | h
            · exact absurd h (by simp)
            · rcases List.mem_append.mp h with h2 | h2
              · exact ihS _ hsub inner.nodeSize _ inner (some nx) (le_refl _) (le_refl _) nm ci h2
              · have hsub2 : nx.nodeSize + sizeO (none : Option CliSyntax) < S := by
                  simp [nodeSize, sizeO] at hS ⊢; omega
                exact ihS _ hsub2 nx.nodeSize _ nx none (le_refl _) (le_refl _) nm ci h2
        | plus inner pmin pmax =>
          have hsub : inner.nodeSize + sizeO next < S := by
            simp [nodeSize] at hS; omega
          cases next with
          | none =>
            exact ihS _ hsub inner.nodeSize _ inner none (le_refl _) (le_refl _) nm ci hmem
          | some nx =>
            simp only at hmem
            rcases List.mem_append.mp hmem with h2 | h2
            · exact ihS _ hsub inner.nodeSize _ inner (some nx) (le_refl _) (le_refl _) nm ci h2
            · have hsub2 : nx.nodeSize + sizeO (none : Option CliSyntax) < S := by
                simp [nodeSize, sizeO] at hS ⊢; omega
              exact ihS _ hsub2 nx.nodeSize _ nx none (le_refl _) (le_refl _) nm ci h2
        | concat f n =>
          cases next with
          | none =>
            have hsub : f.nodeSize + sizeO (some n) < S := by
              simp [nodeSize, sizeO] at hS ⊢; omega
            exact ihS _ hsub f.nodeSize _ f (some n) (le_refl _) (le_refl _) nm ci hmem
          | some nx =>
            have hsum : f.nodeSize + sizeO (some (allocConcat n nx)) ≤ S := by
              simp [nodeSize, sizeO, nodeSize_allocConcat] at hS ⊢; omega
            have hsz : f.nodeSize < z := by
              simp [nodeSize] at hz; omega
            exact ihz f.nodeSize hsz argc f (some (allocConcat n nx)) hsum (le_refl _) nm ci hmem
        | alternate f r =>
          simp only at hmem
          have hf : f.nodeSize + sizeO next < S := by
            simp [nodeSize] at hS; omega
          have hr : r.nodeSize + sizeO next < S := by
            simp [nodeSize] at hS; omega
          rcases List.mem_append.mp hmem with h2 | h2
          · exact ihS _ hf f.nodeSize _ f next (le_refl _) (le_refl _) nm ci h2
          · exact ihS _ hr r.nodeSize _ r next (le_refl _) (le_refl _) nm ci h2

/-- Claim C5 (completion containment): for every grammar `g` and every
supplied partial word `w` (prefix sense), every literal entry returned by
`syntax_prefix_words` starts with `w`, the comparison respecting the
literal's case-insensitivity flag.  (The OPTIONAL skip marker `""` and
the VARARGS placeholder `"..."` are the only non-literal entries.) -/
theorem syntax_prefix_words_contains (w : String) (argc : Nat) (g : CliSyntax)
    (next : Option CliSyntax) (nm : String) (ci : Bool)
    (hmem : PrefixEntry.lit nm ci ∈
      syntax_prefix_words (some w) CLI_MATCH_PREFIX argc g next) :
    (if ci then strCasePfx w nm else strPfx w nm) = true :=
  syntax_prefix_words_containment_aux w (g.nodeSize + sizeO next) g.nodeSize
    argc g next (le_refl _) (le_refl _) nm ci hmem

/-- Witness for C5: completing `i` against `(interface|route)` returns the
literal `interface`, which does start with `i`. -/
theorem syntax_prefix_words_contains_witness :
    (PrefixEntry.lit "interface" false ∈
      syntax_prefix_words (some "i") CLI_MATCH_PREFIX 256
        (.alternate (.exact "interface" 0 none) (.exact "route" 0 none)) none) ∧
    strPfx "i" "interface" = true := by
  have hmem : PrefixEntry.lit "interface" false ∈
      syntax_prefix_words (some "i") CLI_MATCH_PREFIX 256
        (.alternate (.exact "interface" 0 none) (.exact "route" 0 none)) none := by
    rw [syntax_prefix_words.eq_def]
    norm_num [CLI_MATCH_PREFIX, FLAG_CASE_INSENSITIVE, syntax_prefix_words.eq_def]
    left
    decide
  have h := syntax_prefix_words_contains "i" 256
    (.alternate (.exact "interface" 0 none) (.exact "route" 0 none)) none
    "interface" false hmem
  exact ⟨hmem, by simpa using h⟩

/-! ## The permission engine (src/permission.c) and the lexer entry it uses
(`str2argv`, src/util.c lines 33–99) -/

/-- ASCII `isspace`. -/
def cIsSpace (c : Char) : Bool :=
  c = ' ' || c = '\t' || c = '\n' || c = '\x0b' || c = '\x0c' || c = '\r'

/-- The leading-whitespace skip loops of `str2argv`. -/
def skipSpaces : List Char → List Char
  | [] => []
  | c :: cs => if cIsSpace c then skipSpaces cs else c :: cs

/-- The function `strquotelen(str)` (src/util.c lines 10–31): the length of a
quoted token starting at quote character `q`, including both quotes;
`none` is the C `-1` (unterminated quote, or a backslash at the very
end). -/
def strquotelen (q : Char) : List Char → Nat → Option Nat
  | [], _ => none
  | c :: cs, n =>
    if c = '\\' then
      match cs with
      | [] => none
      | _ :: cs' => strquotelen q cs' (n + 2)
    else if c = q then some (n + 1)
    else strquotelen q cs (n + 1)

/-- The token predicate of the bare-word scan of `str2argv`:
`*p && *p != '"' && *p != '\'' && !isspace(*p)`. -/
def wordChar (c : Char) : Bool := c ≠ '"' && c ≠ '\'' && !cIsSpace c

/-- The main loop of `str2argv` (src/util.c lines 47–98), with `fuel`
bounding the iteration count (each iteration consumes at least one input
character, so `p.length + 1` fuel is always enough).  `none` is the C
`-1` error return (which is also what falls out when the loop exhausts
its input through the quoted-token path, or when `max_argc` tokens are
exceeded with input left). -/
def str2argv_loop (maxa : Nat) : Nat → List Char → Nat → Option (List String)
  | 0, _, _ => none
  | _ + 1, [], _ => none                     -- loop condition: *p == 0 → return -1
  | fuel + 1, p@(_ :: _), argc =>
    if maxa ≤ argc then none                  -- loop condition: argc == max_argc → return -1
    else
      match skipSpaces p with
      | [] => some []                         -- if (!*p) return argc
      | c :: rest =>
        if c = ';' ∨ c = '#' then some []     -- comment: return argc
        else if c = '"' ∨ c = '\'' then
          match strquotelen c rest 1 with
          | none => none
          | some qlen =>
            let tok := String.mk ((c :: rest).take qlen)
            match (c :: rest).drop qlen with
            | [] => some [tok]                -- if (!*p) return argc
            | a :: after =>
              if ¬ cIsSpace a then none       -- quoted token glued to more text
              else (str2argv_loop maxa fuel after (argc + 1)).map (tok :: ·)
        else
          let tok := String.mk ((c :: rest).takeWhile wordChar)
          match (c :: rest).dropWhile wordChar with
          | [] => some [tok]                  -- if (!*p) return argc
          | a :: after =>
            if ¬ cIsSpace a then none         -- word runs into a quote: return -1
            else (str2argv_loop maxa fuel (a :: after) (argc + 1)).map (tok :: ·)

/-- The function `str2argv(buf, len, max_argc, argv)`: tokenize a line;
`none` is the C `-1`. -/
def str2argv (cs : List Char) (maxa : Nat) : Option (List String) :=
  if cs.length = 0 ∨ maxa = 0 then some []
  else
    match skipSpaces cs with
    | [] => some []
    | c :: rest =>
      if c = ';' ∨ c = '#' then some []
      else str2argv_loop maxa (cs.length + 1) (c :: rest) 0

/-- One permission rule (`cli_permission_t`): the allow/deny flag and the
argv pattern.  The C structure's `lineno` and `input_line` fields play no
part in evaluation. -/
structure PermRule where
  allowed : Bool
  argvPat : List String
deriving DecidableEq, Repr

/-- The function `permission_parse_line(buf)` (src/permission.c lines
94–127).  `some none` is the C `NULL` return (blank or comment line:
no rule); the outer `none` marks the path on which `str2argv` returns
`-1` and the C code then calls `calloc` with `argc - 1 = -2` pattern
slots and copies a negative byte count — undefined behavior. -/
def permission_parse_line (buf : String) : Option (Option PermRule) :=
  if buf.length = 0 then some none
  else
    match str2argv buf.data 256 with
    | none => none
    | some [] => some none
    | some (w0 :: rest) =>
      if w0.data.head? = some '!' then
        some (some ⟨false, String.mk w0.data.tail :: rest⟩)
      else
        some (some ⟨true, w0 :: rest⟩)

/-- The `\r`/`\n` truncation `permission_parse_file` applies to each line
before parsing it. -/
def stripCrLf (s : String) : String :=
  String.mk (s.data.takeWhile (fun c => c ≠ '\r' && c ≠ '\n'))

/-- The function `permission_parse_file` (src/permission.c lines 129–178),
given the lines of a readable file.  The result is the parsed rule list
together with the return code: `0` when the file is the deny-all
shortcut (a single `!*` rule), `1` otherwise.  `none` marks undefined
behavior: either a line hit the `str2argv < 0` path, or — the final
deny-all test — `head` is `NULL` because no line produced a rule, and
`head->next` dereferences a null pointer. -/
def permission_parse_file (lines : List String) : Option (List PermRule × Int) := do
  let mut_rules ← lines.foldlM (fun acc line => do
    let r ← permission_parse_line (stripCrLf line)
    pure (match r with
      | none => acc
      | some rule => acc ++ [rule])) []
  match mut_rules with
  | [] => none  -- head == NULL: head->next is a null dereference
  | head :: tail =>
    if tail = [] ∧ head.allowed = false ∧ head.argvPat.length = 1 ∧
        head.argvPat.head? = some "*" then
      some (mut_rules, 0)
    else
      some (mut_rules, 1)


/-- The inner pattern loop of `permission_enforce` (src/permission.c lines
59–72), recast on the remaining pattern/argv tails.  The C loop runs `i`
over the pattern; `if (i > argc) break;` keeps the rule matching once
`i` passes the end of argv, a `*` entry is skipped without looking at
`argv[i]`, and any other entry is compared with `strcmp(pat[i],
argv[i])`.  At `i = argc` that comparison reads `argv[argc]`, one past
the end of the argv array: `none` marks that undefined read. -/
def permission_rule_match : List String → List String → Option Bool
  | [], _ => some true
  | p :: _, [] => if p = "*" then some true else none
  | p :: ps, w :: ws =>
    if p = "*" then permission_rule_match ps ws
    else if p ≠ w then some false
    else permission_rule_match ps ws

/-- The function `permission_enforce(head, argc, argv)` (src/permission.c
lines 49–91): `some 1` = allow, `some 0` = deny, `none` = a rule hit the
out-of-bounds `argv[argc]` read. -/
def permission_enforce (rules : List PermRule) (argv : List String) : Option Int :=
  if argv.isEmpty then some 1    -- `if (!head || (argc == 0)) return 1;`
  else go rules
where
  go : List PermRule → Option Int
  | [] => some 1
  | r :: rest =>
    match permission_rule_match r.argvPat argv with
    | none => none
    | some true => some (if r.allowed then 1 else 0)
    | some false => go rest

/-- Modelled from the claim's words (C6): "a pattern entry `*` matches any
word, and any other entry must equal the corresponding argv word" — so a
pattern matches only when every entry has a corresponding argv word that
it matches, and `enforce` returns deny exactly when the first matching
rule is a deny rule. -/
def claim_rule_match (pat argv : List String) : Bool :=
  decide (pat.length ≤ argv.length) &&
    (pat.zip argv).all (fun pw => pw.1 = "*" || pw.1 = pw.2)

/-- Modelled from the claim's words (C6): first-match evaluation in file
order; `true` = allow. -/
def claim_enforce (rules : List PermRule) (argv : List String) : Bool :=
  match rules.find? (fun r => claim_rule_match r.argvPat argv) with
  | some r => r.allowed
  | none => true

/-- The prefix/wildcard match the code actually implements on the
positions that exist in both lists (`List.zip` truncates at the shorter
list). -/
def prefix_wildcard_match (pat argv : List String) : Bool :=
  (pat.zip argv).all (fun pw => pw.1 = "*" || pw.1 = pw.2)

lemma permission_rule_match_eq_some (pat argv : List String)
    (hsafe : permission_rule_match pat argv ≠ none) :
    permission_rule_match pat argv = some (prefix_wildcard_match pat argv) := by
  induction pat generalizing argv with
  | nil => simp [permission_rule_match, prefix_wildcard_match]
  | cons p ps ih =>
    cases argv with
    | nil =>
      rw [permission_rule_match] at hsafe ⊢
      by_cases hw : p = "*"
      · simp [if_pos hw, prefix_wildcard_match]
      · simp [if_neg hw] at hsafe
    | cons w ws =>
      rw [permission_rule_match] at hsafe ⊢
      by_cases hw : p = "*"
      · rw [if_pos hw] at hsafe ⊢
        rw [ih ws hsafe]
        simp [prefix_wildcard_match, hw]
      · rw [if_neg hw] at hsafe ⊢
        by_cases hne : p ≠ w
        · rw [if_pos hne]
          simp [prefix_wildcard_match, hw, hne]
        · rw [if_neg hne] at hsafe ⊢
          rw [ih ws hsafe]
          push_neg at hne
          simp [prefix_wildcard_match, hw, hne]

/-- Claim C6, amended: an empty argv is always allowed — the
`argc == 0` guard returns 1 before any rule is consulted; otherwise
`enforce(rules, argv)` returns deny exactly when the first rule whose
pattern matches argv is a deny rule, rules evaluated in file order, `*`
a wildcard — but a pattern matches on the positions both lists share
(`prefix_wildcard_match`): pattern entries beyond the end of argv do
not prevent a match (the entry at position exactly `len(argv)`, when
reached, must be `*`, otherwise the code reads `argv[argc]` out of
bounds — the `hsafe` hypothesis, vacuous for an empty argv, where the
loop never runs). -/
theorem permission_enforce_first_match (rules : List PermRule) (argv : List String)
    (hsafe : argv ≠ [] → ∀ r ∈ rules, permission_rule_match r.argvPat argv ≠ none) :
    permission_enforce rules argv =
      some (if argv = [] then 1
            else match rules.find? (fun r => prefix_wildcard_match r.argvPat argv) with
                 | some r => if r.allowed then 1 else 0
                 | none => 1) := by
  by_cases hne : argv = []
  · subst hne
    simp [permission_enforce]
  · replace hsafe := hsafe hne
    rw [permission_enforce, if_neg (by simpa [List.isEmpty_iff] using hne), if_neg hne]
    induction rules with
    | nil => simp [permission_enforce.go]
    | cons r rest ih =>
      rw [permission_enforce.go]
      rw [permission_rule_match_eq_some _ _ (hsafe r (by simp))]
      by_cases hm : prefix_wildcard_match r.argvPat argv
      · simp [hm]
      · simp only [hm]
        rw [List.find?]
        simp only [hm, cond_false]
        exact ih (fun r hr => hsafe r (by simp [hr]))

/-- Counterexample to C6 as stated: under the claim's match semantics
("any other entry must equal the corresponding argv word"), the deny rule
`!show *` does not match the one-word argv `show` (there is no word for
`*` to match), so enforce should allow; the code's loop ignores pattern
positions past the end of argv and the `*` at position `len(argv)`, so
the rule matches and `permission_enforce` denies. -/
theorem permission_enforce_counterexample :
    permission_enforce [⟨false, ["show", "*"]⟩] ["show"] = some 0 ∧
    claim_enforce [⟨false, ["show", "*"]⟩] ["show"] = true := by
  constructor
  · rfl
  · rfl

/-- Witness for the amended C6 theorem: a concrete rule list on a
two-word argv, and the deny-all rule list on the empty argv, which the
`argc == 0` guard allows without consulting any rule. -/
theorem permission_enforce_first_match_witness :
    permission_enforce [⟨true, ["show", "*"]⟩, ⟨false, ["*"]⟩] ["show", "version"] = some 1 ∧
    permission_enforce [⟨false, ["*"]⟩] [] = some 1 := by
  constructor
  · have h := permission_enforce_first_match
      [⟨true, ["show", "*"]⟩, ⟨false, ["*"]⟩] ["show", "version"]
      (fun _ => by decide)
    simpa using h
  · have h := permission_enforce_first_match [⟨false, ["*"]⟩] []
      (fun hc => absurd rfl hc)
    simpa using h

/-- Claim C10 (code bug): on a readable permission file whose every line
is blank or a comment, no rule is parsed, `head` stays `NULL`, and the
final deny-all shortcut `head->next` dereferences a null pointer
(modelled as `none`) instead of returning 1 with an empty rule list as
the claim states.  The other two conjuncts check the surrounding
behavior the claim relies on: a lone `!*` file yields the deny-all
result 0, and a normal rule file yields 1. -/
theorem permission_parse_file_null_deref :
    permission_parse_file ["# only comments here", "", "   ", "; nothing"] = none ∧
    permission_parse_file ["!*"] = some ([⟨false, ["*"]⟩], 0) ∧
    permission_parse_file ["allow something"] = some ([⟨true, ["allow", "something"]⟩], 1) := by
  refine ⟨rfl, rfl, rfl⟩

/-! ## Dispatch path resolution (`recli_exec`, src/dir.c lines 395–446)

The filesystem below `rundir` is abstracted as a function from relative
path component lists to what `stat` reports: a directory, some other
existing entry (the executable case), or nothing.  Only the resolution
loop is modelled; the pipe/fork/exec machinery below `run:` consumes its
result `(path, index)` as `my_argv[0] = buffer` and
`my_argv[1..] = argv[index..argc]`. -/

inductive FsKind where
  | dir
  | file
  | missing
deriving DecidableEq, Repr

/-- Outcome of the resolution loop of `recli_exec`:

* `run path rest` — control reaches `run:` with the executable at
  `rundir/path` and `rest` the argv words not consumed (they become the
  child's argv after the executable name);
* `err` — an error return `-1`;
* `retZero` — `argc == 0`, the function returns 0 without doing anything;
* `oob` — every argv word was consumed while the path still names a
  directory: the loop condition `while (argc && ISDIR)` never tests
  `index`, so the next iteration reads `argv[argc]` past the end of the
  array (undefined behavior). -/
inductive ExecResolution where
  | run (path : List String) (rest : List String)
  | err
  | retZero
  | oob
deriving DecidableEq, Repr

/-- The resolution loop of `recli_exec`.  `path` is the components so far
(`buffer` holds `rundir/` + path), `rest` the argv words not yet
consumed, `kind` the result of the last `stat`.  On a missing extended
path the code overwrites everything after `rundir/` with `/DEFAULT`
(`snprintf(q, ..., "/DEFAULT")`, `q` pointing just past `rundir/`) and
resets `index = 0`, so the whole original argv is passed to the child. -/
def recli_exec_go (fs : List String → FsKind) (argv : List String) :
    List String → List String → FsKind → ExecResolution
  | path, rest, .dir =>
    match rest with
    | [] => .oob
    | w :: ws =>
      let path' := path ++ [w]
      match fs path' with
      | .missing =>
        if fs ["DEFAULT"] = .missing then .err
        else .run ["DEFAULT"] argv
      | k => recli_exec_go fs argv path' ws k
  | path, rest, _ => .run path rest

/-- The entry of `recli_exec` up to `run:`: the `argc == 0` guard, the
`stat` of `rundir/` itself, then the loop. -/
def recli_exec_resolve (fs : List String → FsKind) (argv : List String) :
    ExecResolution :=
  if argv = [] then .retZero
  else if fs [] = .missing then .err
  else recli_exec_go fs argv [] argv (fs [])

lemma recli_exec_go_reaches (fs : List String → FsKind) (argv : List String)
    (hne : argv ≠ []) :
    ∀ k, k ≤ argv.length → (∀ i, i ≤ k → fs (argv.take i) = .dir) →
    recli_exec_resolve fs argv =
      recli_exec_go fs argv (argv.take k) (argv.drop k) .dir := by
  intro k
  induction k with
  | zero =>
    intro _ hdirs
    have h0 : fs [] = .dir := by simpa using hdirs 0 (le_refl _)
    rw [recli_exec_resolve, if_neg hne, if_neg (by simp [h0]), h0]
    simp
  | succ k ih =>
    intro hk hdirs
    have hlt : k < argv.length := by omega
    have hstep := ih (by omega) (fun i hi => hdirs i (by omega))
    rw [hstep]
    rw [List.drop_eq_getElem_cons hlt, recli_exec_go]
    have htake : argv.take k ++ [argv[k]] = argv.take (k + 1) :=
      List.take_concat_get' argv k hlt
    simp only [htake]
    have hk1 : fs (argv.take (k + 1)) = .dir := hdirs (k + 1) (le_refl _)
    rw [hk1]

/-- Claim C9: starting from `rundir`, argv words are consumed one at a
time extending the path while it names a directory; when the next
extended path does not exist, resolution retries with `/DEFAULT` appended
(to `rundir` itself — the code overwrites everything after `rundir/`, so
no argv word is consumed as a path component of the DEFAULT path); and
the remaining argv words — those not consumed as path components — become
the child's argv after the executable name (hence the *whole* argv in the
DEFAULT case, and `argv[k+1..]` when `argv[0..k]` resolved to the
executable). -/
theorem recli_exec_path_resolution (fs : List String → FsKind)
    (argv : List String) (k : Nat) (hne : argv ≠ []) (hk : k < argv.length)
    (hdirs : ∀ i, i ≤ k → fs (argv.take i) = .dir) :
    (fs (argv.take (k + 1)) = .file →
      recli_exec_resolve fs argv = .run (argv.take (k + 1)) (argv.drop (k + 1))) ∧
    (fs (argv.take (k + 1)) = .missing →
      recli_exec_resolve fs argv =
        (if fs ["DEFAULT"] = .missing then .err else .run ["DEFAULT"] argv)) := by
  rw [recli_exec_go_reaches fs argv hne k (le_of_lt hk) hdirs]
  rw [List.drop_eq_getElem_cons hk, recli_exec_go]
  have htake : argv.take k ++ [argv[k]] = argv.take (k + 1) :=
    List.take_concat_get' argv k hk
  simp only [htake]
  constructor
  · intro hfile
    rw [hfile]
    simp [recli_exec_go]
  · intro hmiss
    rw [hmiss]

def fsW : List String → FsKind
  | [] => .dir
  | ["net"] => .dir
  | ["net", "show"] => .file
  | _ => .missing

/-- Witness for C9 on a concrete three-level filesystem: `net` is a
directory, `net/show` an executable, so `eth0` remains for the child. -/
theorem recli_exec_path_resolution_witness :
    recli_exec_resolve fsW ["net", "show", "eth0"] =
      .run ["net", "show"] ["eth0"] := by
  have h := (recli_exec_path_resolution fsW ["net", "show", "eth0"] 1
    (by decide) (by decide) (by decide)).1 (by decide)
  simpa using h

/-! ## The content-addressed store (src/src/syntax.c lines 80–233, 452–523,
1229–1476)

Node identity in C is the pointer; here a node's address is an abstract
`Nat` and the store (`hash_table`) is the list of live `(address,
content)` pairs.  `syntax_find` looks up `hash_table[hash & (table_size -
1)]` and accepts the slot when `found->hash == this->hash`: two live
nodes never share a slot (on a slot clash `syntax_insert` doubles the
table until the 32-bit hashes separate them, and two *equal* hashes make
the debug build assert and the insert loop diverge), so semantically the
find is a lookup by full 32-bit content hash, which is how it is
modelled. -/

/-- The content of a node as fed to `syntax_hash`: child pointers are the
abstract addresses of the children (the C function hashes the raw pointer
bytes of `this->first`/`this->next`, not the children's contents). -/
inductive SynContent where
  | exact (name : String) (flags : Nat)
  | varargs (name : String)
  | macroDef (name : String)
  | optional (first : Nat)
  | plus (first : Nat) (pmin pmax : Nat)
  | concat (first next : Nat)
  | alternate (first next : Nat)
deriving DecidableEq, Repr

def FNV_MAGIC_INIT : Nat := 0x811c9dc5

def FNV_MAGIC_PRIME : Nat := 0x01000193

/-- `fnv_hash_update(data, size, hash)` over a byte list, with the 32-bit
wraparound of `hash *= FNV_MAGIC_PRIME` made explicit. -/
def fnv_hash_update (bytes : List Nat) (h : Nat) : Nat :=
  bytes.foldl (fun h b => ((h * FNV_MAGIC_PRIME) % 2 ^ 32) ^^^ (b % 256)) h

def fnv_hash (bytes : List Nat) : Nat := fnv_hash_update bytes FNV_MAGIC_INIT

/-- A machine value of `width` bytes, little-endian. -/
def natBytes (width v : Nat) : List Nat :=
  (List.range width).map (fun i => v / 256 ^ i % 256)

/-- The bytes `strlen`/`fnv_hash_update` see of a node's name. -/
def strBytes (s : String) : List Nat := s.data.map (fun c => c.toNat % 256)

/-- The `cli_type_t` enumeration value of a content (EXACT = 1 ..
PLUS = 7). -/
def SynContent.typeTag : SynContent → Nat
  | .exact _ _ => 1
  | .varargs _ => 2
  | .optional _ => 3
  | .concat _ _ => 4
  | .alternate _ _ => 5
  | .macroDef _ => 6
  | .plus _ _ _ => 7

/-- The function `syntax_hash` (src/src/syntax.c lines 113–177): FNV over
the 4-byte type tag, then the variant-specific fields — the keyword bytes
and the 4-byte `min` word for EXACT, the name bytes for VARARGS/MACRO,
and the 8-byte child pointers (plus `min`/`max` for PLUS) for the
structured variants. -/
def syntax_hash (c : SynContent) : Nat :=
  let h := fnv_hash (natBytes 4 c.typeTag)
  match c with
  | .exact name flags => fnv_hash_update (natBytes 4 flags) (fnv_hash_update (strBytes name) h)
  | .varargs name => fnv_hash_update (strBytes name) h
  | .macroDef name => fnv_hash_update (strBytes name) h
  | .optional first => fnv_hash_update (natBytes 8 first) h
  | .plus first pmin pmax =>
    fnv_hash_update (natBytes 4 pmax)
      (fnv_hash_update (natBytes 4 pmin) (fnv_hash_update (natBytes 8 first) h))
  | .concat first next => fnv_hash_update (natBytes 8 next) (fnv_hash_update (natBytes 8 first) h)
  | .alternate first next => fnv_hash_update (natBytes 8 next) (fnv_hash_update (natBytes 8 first) h)

/-- The live store: one `(address, content)` pair per node held by the
hash table. -/
abbrev SynStore := List (Nat × SynContent)

/-- The function `syntax_find`: the unique live node whose 32-bit content
hash equals the probe's, if any. -/
def syntax_find (store : SynStore) (c : SynContent) : Option (Nat × SynContent) :=
  List.find? (fun e => syntax_hash e.2 = syntax_hash c) store

/-- The find-or-insert core of `syntax_alloc` (`syntax_ref(&find)` at line
1389 returning the existing node, or `syntax_insert` at line 1467 placing
a freshly allocated one): returns the node's address and the new store.
`fresh` is the address `calloc` hands out for the new node. -/
def syntax_alloc_store (store : SynStore) (c : SynContent) (fresh : Nat) :
    Nat × SynStore :=
  match syntax_find store c with
  | some e => (e.1, store)
  | none => (fresh, (fresh, c) :: store)

/-- The store invariant `syntax_insert` maintains: distinct live nodes
have distinct 32-bit hashes (and distinct addresses). -/
def StoreInv (store : SynStore) : Prop :=
  store.Pairwise (fun e1 e2 => syntax_hash e1.2 ≠ syntax_hash e2.2 ∧ e1.1 ≠ e2.1)

lemma store_hash_inj {store : SynStore} (hinv : StoreInv store) :
    ∀ e1 ∈ store, ∀ e2 ∈ store,
      syntax_hash e1.2 = syntax_hash e2.2 → e1 = e2 := by
  intro e1 h1 e2 h2 hh
  by_contra hne
  have hsym : Symmetric (fun (e1 e2 : Nat × SynContent) =>
      syntax_hash e1.2 ≠ syntax_hash e2.2 ∧ e1.1 ≠ e2.1) := by
    intro a b hab
    exact ⟨fun h => hab.1 h.symm, fun h => hab.2 h.symm⟩
  have := (List.Pairwise.forall hsym hinv) h1 h2 hne
  exact this.1 hh

/-- Claim C7: node uniqueness / canonicalization.  Under the store
invariant that `syntax_insert` maintains, (1) at most one live node
exists for any given content — two live entries with equal contents are
the same entry (same address), so the store never holds two distinct
nodes with the same content; and (2) `syntax_alloc` on a content that is
already live returns the existing node's address and leaves the store
unchanged — hence two successive parses of syntactically identical
grammar text, which perform the same sequence of `syntax_alloc` calls,
return pointer-equal nodes. -/
theorem syntax_store_unique (store : SynStore) (hinv : StoreInv store) :
    (∀ e1 ∈ store, ∀ e2 ∈ store, e1.2 = e2.2 → e1 = e2) ∧
    (∀ (a : Nat) (c : SynContent), (a, c) ∈ store →
      ∀ fresh, syntax_alloc_store store c fresh = (a, store)) := by
  constructor
  · intro e1 h1 e2 h2 hc
    exact store_hash_inj hinv e1 h1 e2 h2 (by rw [hc])
  · intro a c hmem fresh
    have hsat : (fun e => decide (syntax_hash e.2 = syntax_hash c)) (a, c) = true := by
      simp
    have hsome : (List.find? (fun e => syntax_hash e.2 = syntax_hash c) store).isSome := by
      rw [List.find?_isSome]
      exact ⟨(a, c), hmem, hsat⟩
    obtain ⟨e0, he0⟩ := Option.isSome_iff_exists.mp hsome
    have he0mem : e0 ∈ store := List.mem_of_find?_eq_some he0
    have he0p : syntax_hash e0.2 = syntax_hash c := by
      have := List.find?_some he0
      simpa using this
    have : e0 = (a, c) :=
      store_hash_inj hinv e0 he0mem (a, c) hmem (by simpa using he0p)
    rw [syntax_alloc_store, syntax_find, he0, this]

/-- Witness for C7 on a concrete two-node store: re-allocating the
literal `show` returns its existing address 100 and the same store. -/
theorem syntax_store_unique_witness :
    StoreInv [(100, SynContent.exact "show" 0), (200, SynContent.optional 100)] ∧
    syntax_alloc_store [(100, SynContent.exact "show" 0), (200, SynContent.optional 100)]
        (SynContent.exact "show" 0) 300 =
      (100, [(100, SynContent.exact "show" 0), (200, SynContent.optional 100)]) := by
  have hinv : StoreInv [(100, SynContent.exact "show" 0), (200, SynContent.optional 100)] := by
    rw [StoreInv]
    refine List.Pairwise.cons ?_ (List.Pairwise.cons (by simp) List.Pairwise.nil)
    intro e he
    simp at he
    subst he
    refine ⟨by decide, by decide⟩
  refine ⟨hinv, ?_⟩
  exact (syntax_store_unique _ hinv).2 100 (SynContent.exact "show" 0) (by simp) 300

/-! ## The node total order and the merge machinery
(src/src/syntax.c lines 238–329 and 610–1200) -/

/-- Sign-normalized `strcmp` over the byte sequences of two names (the C
code only tests the sign and zero). -/
def strcmp : List Char → List Char → Int
  | [], [] => 0
  | [], _ :: _ => -1
  | _ :: _, [] => 1
  | a :: as, b :: bs =>
    if a.toNat < b.toNat then -1
    else if b.toNat < a.toNat then 1
    else strcmp as bs

lemma strcmp_antisymm (a b : List Char) : strcmp a b = -strcmp b a := by
  induction a generalizing b with
  | nil => cases b <;> simp [strcmp]
  | cons x xs ih =>
    cases b with
    | nil => simp [strcmp]
    | cons y ys =>
      rw [strcmp, strcmp]
      rcases Nat.lt_trichotomy x.toNat y.toNat with h | h | h
      · have h2 : ¬ y.toNat < x.toNat := by omega
        simp [h, h2]
      · have h1 : ¬ x.toNat < y.toNat := by omega
        have h2 : ¬ y.toNat < x.toNat := by omega
        simp [h1, h2, ih ys]
      · have h2 : ¬ x.toNat < y.toNat := by omega
        simp [h, h2]

/-- Lexicographic comparison of `Nat` lists: the model of the C fallback
pointer comparison in `syntax_order` (see below). -/
def cmpNatList : List Nat → List Nat → Ordering
  | [], [] => .eq
  | [], _ :: _ => .lt
  | _ :: _, [] => .gt
  | a :: as, b :: bs =>
    if a < b then .lt
    else if b < a then .gt
    else cmpNatList as bs

lemma cmpNatList_swap (a b : List Nat) : cmpNatList a b = (cmpNatList b a).swap := by
  induction a generalizing b with
  | nil => cases b <;> simp [cmpNatList, Ordering.swap]
  | cons x xs ih =>
    cases b with
    | nil => simp [cmpNatList, Ordering.swap]
    | cons y ys =>
      rw [cmpNatList, cmpNatList]
      rcases Nat.lt_trichotomy x y with h | h | h
      · have h2 : ¬ y < x := by omega
        simp [h, h2, Ordering.swap]
      · have h1 : ¬ x < y := by omega
        have h2 : ¬ y < x := by omega
        simp [h1, h2, ih ys]
      · have h2 : ¬ x < y := by omega
        simp [h, h2, Ordering.swap]

/-- A flattening of a node used only by the fallback comparison. -/
def encCli : CliSyntax → List Nat
  | .exact n f d =>
    1 :: n.length :: (strBytes n ++ f ::
      (match d with
       | none => [0]
       | some s => 2 :: s.length :: strBytes s))
  | .varargs => [2]
  | .optional x => 3 :: encCli x
  | .concat x y => 4 :: (encCli x).length :: (encCli x ++ encCli y)
  | .alternate x y => 5 :: (encCli x).length :: (encCli x ++ encCli y)
  | .plus x mn mx => 7 :: mn :: mx :: encCli x

/-- The final tie-break of `syntax_order` ("We have got to pick some
order, so pick a stupid one": the C compares the two node addresses; any
fixed order on distinct nodes is a faithful model of one run). -/
def ptrOrder (a b : CliSyntax) : Int :=
  match cmpNatList (encCli a) (encCli b) with
  | .lt => -1
  | .gt => 1
  | .eq => 0

lemma ptrOrder_antisymm (a b : CliSyntax) : ptrOrder a b = -ptrOrder b a := by
  rw [ptrOrder, ptrOrder, cmpNatList_swap (encCli a)]
  cases cmpNatList (encCli b) (encCli a) <;> simp [Ordering.swap]

/-- Whether the literal carries an attached datatype validator
(`a->next != NULL` on an EXACT node). -/
def hasdt : CliSyntax → Bool
  | .exact _ _ (some _) => true
  | _ => false

/-- The function `syntax_order(a, b)` (src/src/syntax.c lines 238–329):
the total order used to sort alternatives.  Literals compare by validator
presence (real keywords first) then `strcmp`; VARARGS precedes
everything; a CONCAT is compared through its head, ties broken by the
longer node being greater; `OPTIONAL(x)` follows `x`; ALTERNATE follows
everything else; the residual fallback is the arbitrary-but-fixed
pointer order, modelled by `ptrOrder`. -/
def syntax_order : CliSyntax → CliSyntax → Int
  | a, b =>
    if a = b then 0
    else
      match a, b with
      | .exact n1 _ d1, .exact n2 _ d2 =>
        if d1.isSome ∧ ¬d2.isSome then 1
        else if ¬d1.isSome ∧ d2.isSome then -1
        else strcmp n1.data n2.data
      | .varargs, _ => -1
      | _, .varargs => 1
      | .concat f1 r1, .concat f2 r2 =>
        let o := syntax_order f1 f2
        if o ≠ 0 then o else syntax_order r1 r2
      | .concat f1 _, b =>
        let o := syntax_order f1 b
        if o ≠ 0 then o else 1
      | a, .concat f2 _ =>
        let o := syntax_order a f2
        if o ≠ 0 then o else -1
      | .optional x, .optional y => syntax_order x y
      | .optional x, b =>
        let o := syntax_order x b
        if o ≠ 0 then o else 1
      | a, .optional y =>
        let o := syntax_order a y
        if o ≠ 0 then o else -1
      | .alternate f1 r1, .alternate f2 r2 =>
        let o := syntax_order f1 f2
        if o ≠ 0 then o else syntax_order r1 r2
      | .alternate _ _, _ => 1
      | _, .alternate _ _ => -1
      | a, b => ptrOrder a b
termination_by a b => a.nodeSize + b.nodeSize
decreasing_by all_goals simp [nodeSize] <;> omega

lemma syntax_order_antisymm_aux : ∀ (n : Nat), ∀ (a b : CliSyntax),
    a.nodeSize + b.nodeSize ≤ n → syntax_order a b = -syntax_order b a := by
  intro n
  induction n using Nat.strong_induction_on with
  | _ n ih =>
    intro a b hn
    by_cases heq : a = b
    · subst heq
      rw [syntax_order.eq_def]
      simp
    · have heq2 : b ≠ a := Ne.symm heq
      have sub : ∀ (x y : CliSyntax), x.nodeSize + y.nodeSize < a.nodeSize + b.nodeSize →
          syntax_order x y = -syntax_order y x := by
        intro x y hxy
        exact ih (x.nodeSize + y.nodeSize) (by omega) x y (le_refl _)
      rw [syntax_order.eq_def, syntax_order.eq_def]
      dsimp only
      rw [if_neg heq, if_neg heq2]
      have flipIf : ∀ (o : Int) (p q : Int), p = -q →
          (if o ≠ 0 then o else p) = -(if -o ≠ 0 then -o else q) := by
        intro o p q hpq
        by_cases ho : o = 0
        · simp [ho, hpq]
        · rw [if_pos ho, if_pos (by omega)]
          omega
      cases a with
      | exact n1 f1 d1 =>
        cases b with
        | exact n2 f2 d2 =>
          dsimp only
          cases d1 <;> cases d2
          · simpa using strcmp_antisymm n1.data n2.data
          · norm_num
          · norm_num
          · simpa using strcmp_antisymm n1.data n2.data
        | varargs => dsimp only; norm_num
        | optional y =>
          dsimp only
          have h := sub (.exact n1 f1 d1) y (by simp only [nodeSize]; omega)
          rw [h, flipIf (-(syntax_order y (.exact n1 f1 d1))) (-1) 1 rfl]
          norm_num
        | plus y mn mx => dsimp only; rw [ptrOrder_antisymm]
        | concat f2 r2 =>
          dsimp only
          have h := sub (.exact n1 f1 d1) f2 (by simp only [nodeSize]; omega)
          rw [h, flipIf (-(syntax_order f2 (.exact n1 f1 d1))) (-1) 1 rfl]
          norm_num
        | alternate f2 r2 => dsimp only
      | varargs =>
        cases b <;> dsimp only <;> first | exact absurd rfl heq | norm_num
      | optional x =>
        cases b with
        | exact n2 f2 d2 =>
          dsimp only
          have h := sub x (.exact n2 f2 d2) (by simp only [nodeSize]; omega)
          rw [h, flipIf (-(syntax_order (.exact n2 f2 d2) x)) 1 (-1) (by norm_num)]
          norm_num
        | varargs => dsimp only; norm_num
        | optional y =>
          dsimp only
          exact sub x y (by simp only [nodeSize]; omega)
        | plus y mn mx =>
          dsimp only
          have h := sub x (.plus y mn mx) (by simp only [nodeSize]; omega)
          rw [h, flipIf (-(syntax_order (.plus y mn mx) x)) 1 (-1) (by norm_num)]
          norm_num
        | concat f2 r2 =>
          dsimp only
          have h := sub (.optional x) f2 (by simp only [nodeSize]; omega)
          rw [h, flipIf (-(syntax_order f2 (.optional x))) (-1) 1 rfl]
          norm_num
        | alternate f2 r2 =>
          dsimp only
          have h := sub x (.alternate f2 r2) (by simp only [nodeSize]; omega)
          rw [h, flipIf (-(syntax_order (.alternate f2 r2) x)) 1 (-1) (by norm_num)]
          norm_num
      | plus x mn mx =>
        cases b with
        | exact n2 f2 d2 => dsimp only; rw [ptrOrder_antisymm]
        | varargs => dsimp only; norm_num
        | optional y =>
          dsimp only
          have h := sub (.plus x mn mx) y (by simp only [nodeSize]; omega)
          rw [h, flipIf (-(syntax_order y (.plus x mn mx))) (-1) 1 rfl]
          norm_num
        | plus y mn2 mx2 => dsimp only; rw [ptrOrder_antisymm]
        | concat f2 r2 =>
          dsimp only
          have h := sub (.plus x mn mx) f2 (by simp only [nodeSize]; omega)
          rw [h, flipIf (-(syntax_order f2 (.plus x mn mx))) (-1) 1 rfl]
          norm_num
        | alternate f2 r2 => dsimp only
      | concat f1 r1 =>
        cases b with
        | concat f2 r2 =>
          dsimp only
          have h1 := sub f1 f2 (by simp only [nodeSize]; omega)
          have h2 := sub r1 r2 (by simp only [nodeSize]; omega)
          rw [h1, flipIf (-(syntax_order f2 f1)) (syntax_order r1 r2) (syntax_order r2 r1) h2]
          norm_num
        | exact n2 f2 d2 =>
          dsimp only
          have h := sub f1 (.exact n2 f2 d2) (by simp only [nodeSize]; omega)
          rw [h, flipIf (-(syntax_order (.exact n2 f2 d2) f1)) 1 (-1) (by norm_num)]
          norm_num
        | varargs => dsimp only; norm_num
        | optional y =>
          dsimp only
          have h := sub f1 (.optional y) (by simp only [nodeSize]; omega)
          rw [h, flipIf (-(syntax_order (.optional y) f1)) 1 (-1) (by norm_num)]
          norm_num
        | plus y mn mx =>
          dsimp only
          have h := sub f1 (.plus y mn mx) (by simp only [nodeSize]; omega)
          rw [h, flipIf (-(syntax_order (.plus y mn mx) f1)) 1 (-1) (by norm_num)]
          norm_num
        | alternate f2 r2 =>
          dsimp only
          have h := sub f1 (.alternate f2 r2) (by simp only [nodeSize]; omega)
          rw [h, flipIf (-(syntax_order (.alternate f2 r2) f1)) 1 (-1) (by norm_num)]
          norm_num
      | alternate f1 r1 =>
        cases b with
        | exact n2 f2 d2 => dsimp only; norm_num
        | varargs => dsimp only; norm_num
        | optional y =>
          dsimp only
          have h := sub (.alternate f1 r1) y (by simp only [nodeSize]; omega)
          rw [h, flipIf (-(syntax_order y (.alternate f1 r1))) (-1) 1 rfl]
          norm_num
        | plus y mn mx => dsimp only; norm_num
        | concat f2 r2 =>
          dsimp only
          have h := sub (.alternate f1 r1) f2 (by simp only [nodeSize]; omega)
          rw [h, flipIf (-(syntax_order f2 (.alternate f1 r1))) (-1) 1 rfl]
          norm_num
        | alternate f2 r2 =>
          dsimp only
          have h1 := sub f1 f2 (by simp only [nodeSize]; omega)
          have h2 := sub r1 r2 (by simp only [nodeSize]; omega)
          rw [h1, flipIf (-(syntax_order f2 f1)) (syntax_order r1 r2) (syntax_order r2 r1) h2]
          norm_num

lemma syntax_order_antisymm (a b : CliSyntax) : syntax_order a b = -syntax_order b a :=
  syntax_order_antisymm_aux (a.nodeSize + b.nodeSize) a b (le_refl _)

/-- The function `syntax_one_prefix(a, b)` (src/src/syntax.c lines
610–634): a one-node common prefix of two nodes (callers ensure
`a ≠ b`). -/
def syntax_one_pfx (a b : CliSyntax) : Option CliSyntax :=
  match a, b with
  | .concat f1 _, .concat f2 _ => if f1 = f2 then some f1 else none
  | .concat f1 _, _ => if f1 = b then some f1 else none
  | _, .concat f2 _ => if f2 = a then some f2 else none
  | _, _ => none

/-- The function `syntax_lcp(a, b)` (lines 639–654): length of the
longest common prefix of two concatenation sequences (`clen` of a
non-concatenation node is 1, as in the C, where a lone node stands for
the sequence of just itself). -/
def syntax_lcp : CliSyntax → CliSyntax → Nat
  | .concat f na, .concat g nb =>
    if CliSyntax.concat f na = .concat g nb then clen (.concat f na)
    else if (syntax_one_pfx (.concat f na) (.concat g nb)).isNone then 0
    else 1 + syntax_lcp na nb
  | a, b =>
    if a = b then 1
    else if (syntax_one_pfx a b).isNone then 0
    else 1

/-- The walk of `syntax_skip_prefix` once past its guards ("while (lcp)
{ a = a->next; lcp--; }"). -/
def syntax_skip_walk : CliSyntax → Nat → Option CliSyntax
  | a, 0 => some a
  | .concat _ n, k + 1 => syntax_skip_walk n k
  | _, _ + 1 => none

/-- The function `syntax_skip_prefix(a, lcp)` (lines 1141–1168): the
suffix of a concatenation after removing `lcp` leading positions;
`none` is the C `NULL` ("nothing left"). -/
def syntax_skip_pfx (a : CliSyntax) (lcp : Nat) : Option CliSyntax :=
  if lcp = 0 then some a
  else
    match a with
    | .concat f n => if clen (.concat f n) ≤ lcp then none else syntax_skip_walk (.concat f n) lcp
    | _ => none

/-- The function `syntax_concat_prefix(prefix, lcp, tail)` (lines
1174–1200): prepend the first `lcp` positions of `prefix` to `tail`.
`none` marks the path on which the C asserts (`lcp > 1` with a
non-concatenation prefix). -/
def syntax_concat_pfx : CliSyntax → Nat → CliSyntax → Option CliSyntax
  | _, 0, tail => some tail
  | p, lcp + 1, tail =>
    match p with
    | .concat a b =>
      if lcp = 0 then some (allocConcat a tail)
      else (syntax_concat_pfx b lcp tail).map (fun t => allocConcat a t)
    | a =>
      if lcp = 0 then some (allocConcat a tail)
      else none

/-- The OPTIONAL arm of `syntax_alloc`: rejects VARARGS ("Invalid use of
... in []", line 1342) and collapses `[[a]]` to `[a]` (line 1417). -/
def allocOptional : CliSyntax → Option CliSyntax
  | .varargs => none
  | .optional x => some (.optional x)
  | a => some (.optional a)

def CliSyntax.isExact : CliSyntax → Bool
  | .exact _ _ _ => true
  | _ => false

def CliSyntax.isAlternate : CliSyntax → Bool
  | .alternate _ _ => true
  | _ => false

/-- The `create:` label of `syntax_alternate` (lines 952–962): sort the
two operands by `syntax_order` and build the ALTERNATE node. -/
def alternate_create (a b : CliSyntax) : CliSyntax :=
  if syntax_order a b > 0 then .alternate b a else .alternate a b

/-- `syntax_alternate_length` + `syntax_alternate_split` (lines 656–681):
the list of alternatives of a right-nested ALTERNATE chain. -/
def alternate_split : CliSyntax → List CliSyntax
  | .alternate f r => f :: alternate_split r
  | a => [a]

/-- One comparison/exchange of the bubble sort in `syntax_alternate`
(lines 1064–1085): identical nodes are deduplicated (slot `j` freed),
out-of-order pairs are swapped. -/
def bubble_step (arr : List (Option CliSyntax)) (i j : Nat) : List (Option CliSyntax) :=
  match arr.getD i none, arr.getD j none with
  | some x, some y =>
    if x = y then arr.set j none
    else if syntax_order x y > 0 then (arr.set i (some y)).set j (some x)
    else arr
  | _, _ => arr

@[simp] lemma length_bubble_step (arr : List (Option CliSyntax)) (i j : Nat) :
    (bubble_step arr i j).length = arr.length := by
  rw [bubble_step]
  split
  · split
    · simp
    · split <;> simp
  · rfl

def bubble_inner (i : Nat) : Nat → List (Option CliSyntax) → List (Option CliSyntax)
  | j, arr =>
    if j < arr.length then bubble_inner i (j + 1) (bubble_step arr i j) else arr
termination_by j arr => arr.length - j
decreasing_by simp [length_bubble_step]; omega

@[simp] lemma length_bubble_inner (i : Nat) :
    ∀ (j : Nat) (arr : List (Option CliSyntax)),
    (bubble_inner i j arr).length = arr.length := by
  intro j arr
  rw [bubble_inner]
  split
  · rw [length_bubble_inner i (j + 1) (bubble_step arr i j)]
    simp
  · rfl
termination_by j arr => arr.length - j
decreasing_by simp [length_bubble_step]; omega

def bubble_outer : Nat → List (Option CliSyntax) → List (Option CliSyntax)
  | i, arr =>
    if i + 1 < arr.length then
      bubble_outer (i + 1) (if arr.getD i none = none then arr else bubble_inner i (i + 1) arr)
    else arr
termination_by i arr => arr.length - i
decreasing_by split <;> simp [length_bubble_inner] <;> omega

/-- The whole bubble sort over the flattened alternatives. -/
def bubble_sort (arr : List (Option CliSyntax)) : List (Option CliSyntax) :=
  bubble_outer 0 arr

/-- The function `pack_array` (lines 722–747): compact the non-NULL
entries to the front of the window, preserving their order. -/
def pack_window (w : List (Option CliSyntax)) : List (Option CliSyntax) :=
  (w.filterMap id).map some ++ List.replicate (w.length - (w.filterMap id).length) none

/-- The `num_prefix` scan of `recursive_prefix` (lines 805–812): the
first index `j ≥ 2` whose entry does not share the one-node prefix;
when every entry shares it the C loop leaves `num_prefix` at 2. -/
def numPfx (w : List (Option CliSyntax)) (pfx : CliSyntax) (total : Nat) : Nat :=
  match (List.range' 2 (total - 2)).find?
      (fun j => syntax_lcp pfx ((w.getD j none).getD .varargs) = 0) with
  | some j => j
  | none => 2

/-- The prefix-stripping loop of `recursive_prefix` (lines 845–849):
replace each of the first `num` entries by its suffix after one
position. -/
def stripPfx (w : List (Option CliSyntax)) (num : Nat) : List (Option CliSyntax) :=
  (List.range num).foldl
    (fun w i => w.set i ((w.getD i none).bind (fun x => syntax_skip_pfx x 1))) w

/-- The backwards rebuild loop of `recursive_prefix` (lines 874–888):
right-nest the surviving entries into an ALTERNATE chain. -/
def chainAlternate (xs : List CliSyntax) : Option CliSyntax :=
  xs.foldr
    (fun x acc =>
      match acc with
      | none => some x
      | some b => some (.alternate x b)) none

mutual

/-- The function `syntax_alternate(a, b)` (src/src/syntax.c lines
919–1135, `WITH_LCS` compiled out), the merge entry point: `a|a = a`,
VARARGS rejected, two keywords sorted into an ALTERNATE node, a common
prefix factored by `syntax_split_prefix`, two non-alternations sorted
into an ALTERNATE node, and otherwise flatten, bubble-sort with
deduplication, factor recursively, and re-chain.  `none` is the C
`NULL`; the fuel bounds the call depth, every C call terminates. -/
def syntax_alternate : Nat → CliSyntax → CliSyntax → Option CliSyntax
  | 0, _, _ => none
  | fuel + 1, a, b =>
    if a = b then some b
    else if a = .varargs ∨ b = .varargs then none
    else if a.isExact && b.isExact then some (alternate_create a b)
    else if 0 < syntax_lcp a b then syntax_split_pfx fuel a b (syntax_lcp a b)
    else if !a.isAlternate && !b.isAlternate then some (alternate_create a b)
    else
      match recursive_pfx fuel
          (bubble_sort ((alternate_split a ++ alternate_split b).map some)) with
      | none => none
      | some ns => chainAlternate (ns.filterMap id)
termination_by structural fuel _ _ => fuel

/-- The function `syntax_split_prefix(a, b, lcp)` (lines 686–716):
strip the shared `lcp` positions from both operands, merge the tails
(when one tail is empty, wrap the other in OPTIONAL), and re-prepend
the prefix. -/
def syntax_split_pfx : Nat → CliSyntax → CliSyntax → Nat → Option CliSyntax
  | 0, _, _, _ => none
  | fuel + 1, a, b, lcp =>
    match syntax_skip_pfx a lcp, syntax_skip_pfx b lcp with
    | none, some e => (allocOptional e).bind (fun f => syntax_concat_pfx a lcp f)
    | some d, none => (allocOptional d).bind (fun f => syntax_concat_pfx a lcp f)
    | some d, some e => (syntax_alternate fuel d e).bind (fun f => syntax_concat_pfx a lcp f)
    | none, none => none
termination_by structural fuel _ _ _ => fuel

/-- The function `recursive_prefix(nodes, total)` (lines 750–910) on a
window of the node array; `none` marks a failed assertion in the C.
The window is modelled as a list; a sub-window call splices its result
back, as the C mutates the array in place. -/
def recursive_pfx : Nat → List (Option CliSyntax) → Option (List (Option CliSyntax))
  | 0, _ => none
  | fuel + 1, w =>
    if w.length ≤ 1 then some w
    else
      let w := pack_window w
      let total := (w.filterMap id).length
      if total ≤ 1 then some w
      else
        let n0 := (w.getD 0 none).getD .varargs
        let n1 := (w.getD 1 none).getD .varargs
        match syntax_one_pfx n0 n1 with
        | none =>
          if total = 2 then some w
          else
            match recursive_pfx fuel ((w.drop 1).take (total - 1)) with
            | none => none
            | some inner => some (w.take 1 ++ inner ++ w.drop total)
        | some pfx =>
          if total = 2 then
            some ((w.set 0 (syntax_alternate fuel n0 n1)).set 1 none)
          else
            let num := numPfx w pfx total
            if num = 2 then
              let w2 := (w.set 0 (syntax_alternate fuel n0 n1)).set 1 none
              if 4 ≤ total then
                match recursive_pfx fuel ((w2.drop 2).take (total - 2)) with
                | none => none
                | some inner => some (w2.take 2 ++ inner ++ w2.drop total)
              else some w2
            else
              let w3 := stripPfx w num
              let opt := if w3.getD 0 none = none then 1 else 0
              match recursive_pfx fuel ((w3.drop opt).take num) with
              | none => none
              | some inner =>
                let w4 := w3.take opt ++ inner ++ w3.drop (opt + num)
                let rebuilt := chainAlternate ((w4.take num).filterMap id)
                let node0 : Option CliSyntax :=
                  if opt = 1 then (rebuilt.bind allocOptional).map (fun x => allocConcat pfx x)
                  else match rebuilt with
                       | none => some pfx
                       | some x => some (allocConcat pfx x)
                match node0 with
                | none => none
                | some n =>
                  let w5 := ((List.range num).foldl (fun ww i => ww.set i none) w4).set 0 (some n)
                  if total - num = 1 then some w5
                  else
                    match recursive_pfx fuel ((w5.drop num).take (total - num)) with
                    | none => none
                    | some inner2 => some (w5.take num ++ inner2 ++ w5.drop total)
termination_by structural fuel _ => fuel

end

@[simp] lemma clen_pos (a : CliSyntax) : 1 ≤ CliSyntax.clen a := by
  cases a <;> simp [CliSyntax.clen] <;> omega

lemma syntax_skip_walk_lt (a : CliSyntax) :
    ∀ k, k < CliSyntax.clen a → ∃ x, syntax_skip_walk a k = some x := by
  induction a
  case concat f n ihf ihn =>
    intro k hk
    match k with
    | 0 => exact ⟨_, rfl⟩
    | k + 1 =>
      simp only [CliSyntax.clen] at hk
      exact ihn k (by omega)
  all_goals
    intro k hk
    match k with
    | 0 => exact ⟨_, rfl⟩
    | k + 1 => simp [CliSyntax.clen] at hk

lemma syntax_skip_pfx_none_iff (a : CliSyntax) (k : Nat) (hk : 1 ≤ k) :
    syntax_skip_pfx a k = none ↔ CliSyntax.clen a ≤ k := by
  have hk0 : ¬(k = 0) := by omega
  cases a
  case concat f n =>
    by_cases hle : CliSyntax.clen (CliSyntax.concat f n) ≤ k
    · simp [syntax_skip_pfx, hk0, hle]
    · obtain ⟨x, hx⟩ := syntax_skip_walk_lt (CliSyntax.concat f n) k (by omega)
      simp [syntax_skip_pfx, hk0, hle, hx]
  all_goals
    simp [syntax_skip_pfx, CliSyntax.clen, hk0, hk]

def CliSyntax.isConcat : CliSyntax → Bool
  | .concat _ _ => true
  | _ => false

lemma syntax_lcp_nonconcat_le (a b : CliSyntax) (ha : a.isConcat = false) (hab : a ≠ b) :
    syntax_lcp a b = 0 ∨ (syntax_lcp a b = 1 ∧ b.isConcat = true) := by
  cases a <;> cases b <;>
    simp_all [syntax_lcp, syntax_one_pfx, CliSyntax.isConcat] <;>
    tauto

lemma syntax_lcp_full_eq_noncat (a b : CliSyntax) (k : Nat) (ha : a.isConcat = false)
    (hlcp : syntax_lcp a b = k) (hk1 : 1 ≤ k) (hcb : CliSyntax.clen b ≤ k) : a = b := by
  by_cases heq : a = b
  · exact heq
  · exfalso
    rcases syntax_lcp_nonconcat_le a b ha heq with h0 | ⟨h1, hcon⟩
    · omega
    · rw [hlcp] at h1
      cases b with
      | concat g nb =>
        simp only [CliSyntax.clen] at hcb
        have := clen_pos nb
        omega
      | exact n2 f2 d2 => simp [CliSyntax.isConcat] at hcon
      | varargs => simp [CliSyntax.isConcat] at hcon
      | optional y => simp [CliSyntax.isConcat] at hcon
      | plus y mn mx => simp [CliSyntax.isConcat] at hcon
      | alternate f2 r2 => simp [CliSyntax.isConcat] at hcon

lemma syntax_one_pfx_comm (a b : CliSyntax) : syntax_one_pfx a b = syntax_one_pfx b a := by
  cases a
  case concat f1 n1 =>
    cases b with
    | concat f2 n2 =>
      simp only [syntax_one_pfx]
      by_cases h : f1 = f2
      · subst h; simp
      · rw [if_neg h, if_neg (Ne.symm h)]
    | exact n f d => rfl
    | varargs => rfl
    | optional y => rfl
    | plus y mn mx => rfl
    | alternate x y => rfl
  all_goals cases b <;> rfl

lemma syntax_lcp_comm_aux : ∀ (n : Nat) (a b : CliSyntax), a.nodeSize + b.nodeSize ≤ n →
    syntax_lcp a b = syntax_lcp b a := by
  intro n
  induction n using Nat.strong_induction_on with
  | _ n ih =>
    intro a b hn
    by_cases heq : a = b
    · rw [heq]
    · cases a with
      | concat f na =>
        cases b with
        | concat g nb =>
          simp only [syntax_lcp]
          rw [if_neg heq, if_neg (Ne.symm heq), syntax_one_pfx_comm]
          have hrec := ih (na.nodeSize + nb.nodeSize)
            (by simp only [CliSyntax.nodeSize] at hn ⊢; omega) na nb (le_refl _)
          rw [hrec]
        | exact n2 f2 d2 =>
          simp only [syntax_lcp]
          rw [if_neg heq, if_neg (Ne.symm heq), syntax_one_pfx_comm]
        | varargs =>
          simp only [syntax_lcp]
          rw [if_neg heq, if_neg (Ne.symm heq), syntax_one_pfx_comm]
        | optional y =>
          simp only [syntax_lcp]
          rw [if_neg heq, if_neg (Ne.symm heq), syntax_one_pfx_comm]
        | plus y mn mx =>
          simp only [syntax_lcp]
          rw [if_neg heq, if_neg (Ne.symm heq), syntax_one_pfx_comm]
        | alternate f2 r2 =>
          simp only [syntax_lcp]
          rw [if_neg heq, if_neg (Ne.symm heq), syntax_one_pfx_comm]
      | exact n1 f1 d1 =>
        cases b <;>
          simp only [syntax_lcp] <;>
          rw [if_neg heq, if_neg (Ne.symm heq), syntax_one_pfx_comm]
      | varargs =>
        cases b <;>
          simp only [syntax_lcp] <;>
          rw [if_neg heq, if_neg (Ne.symm heq), syntax_one_pfx_comm]
      | optional x =>
        cases b <;>
          simp only [syntax_lcp] <;>
          rw [if_neg heq, if_neg (Ne.symm heq), syntax_one_pfx_comm]
      | plus x mn mx =>
        cases b <;>
          simp only [syntax_lcp] <;>
          rw [if_neg heq, if_neg (Ne.symm heq), syntax_one_pfx_comm]
      | alternate x y =>
        cases b <;>
          simp only [syntax_lcp] <;>
          rw [if_neg heq, if_neg (Ne.symm heq), syntax_one_pfx_comm]

/-- `syntax_lcp` is symmetric in its operands. -/
lemma syntax_lcp_comm (a b : CliSyntax) : syntax_lcp a b = syntax_lcp b a :=
  syntax_lcp_comm_aux (a.nodeSize + b.nodeSize) a b (le_refl _)

lemma syntax_lcp_full_eq (a : CliSyntax) :
    ∀ (b : CliSyntax) (k : Nat), syntax_lcp a b = k → 1 ≤ k →
      CliSyntax.clen a ≤ k → CliSyntax.clen b ≤ k → a = b := by
  induction a
  case concat f na ihf ihn =>
    intro b k hlcp hk1 hca hcb
    by_cases heq : CliSyntax.concat f na = b
    · exact heq
    cases b with
    | concat g nb =>
      rw [syntax_lcp] at hlcp
      rw [if_neg heq] at hlcp
      by_cases hop : (syntax_one_pfx (.concat f na) (.concat g nb)).isNone
      · rw [if_pos hop] at hlcp; omega
      · rw [if_neg hop] at hlcp
        have hfg : f = g := by
          by_cases hfe : f = g
          · exact hfe
          · simp [syntax_one_pfx, hfe] at hop
        simp only [CliSyntax.clen] at hca hcb
        have h1 : 1 ≤ syntax_lcp na nb := by
          have := clen_pos na
          omega
        have hnn := ihn nb (syntax_lcp na nb) rfl h1 (by omega) (by omega)
        rw [hfg, hnn]
    | exact n2 f2 d2 =>
      exact (syntax_lcp_full_eq_noncat _ _ k (by simp [CliSyntax.isConcat])
        (by rw [syntax_lcp_comm]; exact hlcp) hk1 hca).symm
    | varargs =>
      exact (syntax_lcp_full_eq_noncat _ _ k (by simp [CliSyntax.isConcat])
        (by rw [syntax_lcp_comm]; exact hlcp) hk1 hca).symm
    | optional y =>
      exact (syntax_lcp_full_eq_noncat _ _ k (by simp [CliSyntax.isConcat])
        (by rw [syntax_lcp_comm]; exact hlcp) hk1 hca).symm
    | plus y mn mx =>
      exact (syntax_lcp_full_eq_noncat _ _ k (by simp [CliSyntax.isConcat])
        (by rw [syntax_lcp_comm]; exact hlcp) hk1 hca).symm
    | alternate f2 r2 =>
      exact (syntax_lcp_full_eq_noncat _ _ k (by simp [CliSyntax.isConcat])
        (by rw [syntax_lcp_comm]; exact hlcp) hk1 hca).symm
  all_goals
    intro b k hlcp hk1 hca hcb
    exact syntax_lcp_full_eq_noncat _ b k (by simp [CliSyntax.isConcat]) hlcp hk1 hcb

lemma isExact_eq (a : CliSyntax) (h : a.isExact = true) :
    ∃ n f d, a = CliSyntax.exact n f d := by
  cases a <;> first | exact ⟨_, _, _, rfl⟩ | simp [CliSyntax.isExact] at h

/-- C1: longest-common-prefix factoring of the merge. -/
theorem syntax_alternate_lcp_factoring (fuel : Nat) (a b : CliSyntax) (k : Nat)
    (hab : a ≠ b) (ha : a ≠ .varargs) (hb : b ≠ .varargs)
    (hk : syntax_lcp a b = k) (hk1 : 1 ≤ k) :
    (∀ d e, syntax_skip_pfx a k = some d → syntax_skip_pfx b k = some e →
      syntax_alternate (fuel + 2) a b
        = (syntax_alternate fuel d e).bind (fun f => syntax_concat_pfx a k f)) ∧
    (∀ e, syntax_skip_pfx a k = none → syntax_skip_pfx b k = some e →
      syntax_alternate (fuel + 2) a b
        = (allocOptional e).bind (fun f => syntax_concat_pfx a k f)) ∧
    (∀ d, syntax_skip_pfx a k = some d → syntax_skip_pfx b k = none →
      syntax_alternate (fuel + 2) a b
        = (allocOptional d).bind (fun f => syntax_concat_pfx a k f)) ∧
    ¬(syntax_skip_pfx a k = none ∧ syntax_skip_pfx b k = none) := by
  have hsplit : syntax_alternate (fuel + 2) a b = syntax_split_pfx (fuel + 1) a b k := by
    rw [syntax_alternate]
    rw [if_neg hab]
    rw [if_neg (by rintro (h | h); exacts [ha h, hb h])]
    have hex : (a.isExact && b.isExact) = false := by
      by_cases hx : (a.isExact && b.isExact) = true
      · exfalso
        rw [Bool.and_eq_true] at hx
        obtain ⟨n1, f1, d1, rfl⟩ := isExact_eq a hx.1
        obtain ⟨n2, f2, d2, rfl⟩ := isExact_eq b hx.2
        simp [syntax_lcp, syntax_one_pfx, hab] at hk
        omega
      · exact Bool.eq_false_iff.mpr (fun h => hx h)
    rw [hex]
    simp only [Bool.false_eq_true, if_false]
    rw [hk]
    rw [if_pos (by omega : 0 < k)]
  rw [hsplit, syntax_split_pfx]
  refine ⟨?_, ?_, ?_, ?_⟩
  · intro d e hd he
    simp only [hd, he]
  · intro e hd he
    simp only [hd, he]
  · intro d hd he
    simp only [hd, he]
  · rintro ⟨hd, he⟩
    have hca : CliSyntax.clen a ≤ k := (syntax_skip_pfx_none_iff a k hk1).mp hd
    have hcb : CliSyntax.clen b ≤ k := (syntax_skip_pfx_none_iff b k hk1).mp he
    exact hab (syntax_lcp_full_eq a b k hk hk1 hca hcb)

/-- Witness: merging the grammar lines `show route` and
`show route detail` (shared prefix of length 2) factors the prefix and
wraps the leftover `detail` in OPTIONAL, yielding `show route [detail]`. -/
theorem syntax_alternate_lcp_factoring_witness :
    syntax_lcp (CliSyntax.concat (.exact "show" 0 none) (.exact "route" 0 none))
        (CliSyntax.concat (.exact "show" 0 none)
          (.concat (.exact "route" 0 none) (.exact "detail" 0 none))) = 2 ∧
    syntax_alternate 2
        (CliSyntax.concat (.exact "show" 0 none) (.exact "route" 0 none))
        (CliSyntax.concat (.exact "show" 0 none)
          (.concat (.exact "route" 0 none) (.exact "detail" 0 none)))
      = some (CliSyntax.concat (.exact "show" 0 none)
          (.concat (.exact "route" 0 none) (.optional (.exact "detail" 0 none)))) := by
  refine ⟨by decide, ?_⟩
  show syntax_alternate (0 + 2) _ _ = _
  have h := (syntax_alternate_lcp_factoring 0
      (CliSyntax.concat (.exact "show" 0 none) (.exact "route" 0 none))
      (CliSyntax.concat (.exact "show" 0 none)
        (.concat (.exact "route" 0 none) (.exact "detail" 0 none))) 2
      (by decide) (by decide) (by decide) (by decide) (by decide)).2.1
  rw [h (.exact "detail" 0 none) (by decide) (by decide)]
  rfl

lemma alternate_create_comm (a b : CliSyntax) (hord : syntax_order a b ≠ 0) :
    alternate_create a b = alternate_create b a := by
  unfold alternate_create
  have h := syntax_order_antisymm a b
  by_cases hpos : syntax_order a b > 0
  · rw [if_pos hpos, if_neg (by omega)]
  · rw [if_neg hpos, if_pos (by omega)]

/-- C2 counterexample: two distinct EXACT keywords with the same name
(`foo` plain, and `foo` carrying FLAG_CASE_INSENSITIVE) tie under
`syntax_order` (strcmp of equal names is 0), so the create branch keeps
the operands in call order: both merges succeed but return different
nodes. -/
theorem syntax_alternate_comm_counterexample :
    syntax_order (CliSyntax.exact "foo" 0 none) (CliSyntax.exact "foo" 2 none) = 0 ∧
    syntax_alternate 1 (CliSyntax.exact "foo" 0 none) (CliSyntax.exact "foo" 2 none)
      = some (.alternate (.exact "foo" 0 none) (.exact "foo" 2 none)) ∧
    syntax_alternate 1 (CliSyntax.exact "foo" 2 none) (CliSyntax.exact "foo" 0 none)
      = some (.alternate (.exact "foo" 2 none) (.exact "foo" 0 none)) ∧
    CliSyntax.alternate (.exact "foo" 0 none) (.exact "foo" 2 none)
      ≠ .alternate (.exact "foo" 2 none) (.exact "foo" 0 none) := by
  refine ⟨?_, ?_, ?_, by decide⟩
  · simp only [syntax_order.eq_def]; decide
  · simp [syntax_alternate, CliSyntax.isExact, alternate_create, syntax_order.eq_def, strcmp]
  · simp [syntax_alternate, CliSyntax.isExact, alternate_create, syntax_order.eq_def, strcmp]

/-- C2 (amended): the merge commutes whenever it takes the create path
and `syntax_order` separates the operands: no VARARGS, no alternation
operand, no common prefix, order nonzero. -/
theorem syntax_alternate_create_comm (fuel : Nat) (a b : CliSyntax)
    (ha : a ≠ .varargs) (hb : b ≠ .varargs)
    (halt : a.isAlternate = false) (hblt : b.isAlternate = false)
    (hlcp : syntax_lcp a b = 0) (hord : syntax_order a b ≠ 0) :
    syntax_alternate (fuel + 1) a b = syntax_alternate (fuel + 1) b a := by
  have hab : a ≠ b := by
    intro h
    subst h
    apply hord
    rw [syntax_order.eq_def]
    simp
  have hlcp2 : syntax_lcp b a = 0 := by rw [syntax_lcp_comm]; exact hlcp
  have hv1 : ¬(a = CliSyntax.varargs ∨ b = CliSyntax.varargs) := by
    rintro (h | h)
    exacts [ha h, hb h]
  have hv2 : ¬(b = CliSyntax.varargs ∨ a = CliSyntax.varargs) := by
    rintro (h | h)
    exacts [hb h, ha h]
  rw [syntax_alternate, syntax_alternate]
  rw [if_neg hab, if_neg (Ne.symm hab), if_neg hv1, if_neg hv2]
  by_cases hex : (a.isExact && b.isExact) = true
  · have hex2 : (b.isExact && a.isExact) = true := by rw [Bool.and_comm]; exact hex
    rw [if_pos hex, if_pos hex2]
    rw [alternate_create_comm a b hord]
  · have hex2 : ¬((b.isExact && a.isExact) = true) := by rw [Bool.and_comm]; exact hex
    rw [if_neg hex, if_neg hex2]
    rw [hlcp, hlcp2]
    rw [if_neg (lt_irrefl 0), if_neg (lt_irrefl 0)]
    have hna : (!a.isAlternate && !b.isAlternate) = true := by simp [halt, hblt]
    have hnb : (!b.isAlternate && !a.isAlternate) = true := by simp [halt, hblt]
    rw [if_pos hna, if_pos hnb]
    rw [alternate_create_comm a b hord]

/-- Witness: merging the two distinct keywords `bar` and `foo` gives
the same node in either call order. -/
theorem syntax_alternate_create_comm_witness :
    syntax_alternate 1 (CliSyntax.exact "bar" 0 none) (CliSyntax.exact "foo" 0 none)
      = syntax_alternate 1 (CliSyntax.exact "foo" 0 none) (CliSyntax.exact "bar" 0 none) := by
  show syntax_alternate (0 + 1) _ _ = _
  exact syntax_alternate_create_comm 0 _ _ (by decide) (by decide) (by decide) (by decide)
    (by decide) (by simp only [syntax_order.eq_def]; decide)
